import Mathlib

/-!
Verification of gitops-argparser: schema-driven flag parsing.

A shallow embedding of `gitops-argparser.go` (functions `init` and `main`) together with the
parts of the Go standard library that decide its behaviour: `strconv.Atoi`, `strconv.ParseInt`,
`strconv.ParseBool`, `strconv.Itoa`, `fmt.Sprintf("%v", _)` and package `flag`
(`FlagSet.Var`, `FlagSet.Parse`, `FlagSet.parseOne`, `FlagSet.VisitAll`).

Conventions of the embedding.

* A Go `string` is a Lean `String`; byte-level tests of the library (`s[0] == 0x2d`, prefix
  tests, splitting at `=`, digit tests) are made on the character list `s.data`. For valid
  UTF-8 text both views agree, because every byte the library inspects is ASCII and byte-wise
  lexicographic order coincides with code-point order.
* `int` is 64 bits wide (`strconv.IntSize = 64`); machine arithmetic is written on `Nat`/`Int`
  with explicit reduction modulo `2 ^ 64`.
* Package `flag` is modelled as in the Go toolchains from 1.17 on: `FlagSet.Var` panics on a
  name that begins with `-` or contains `=`, as well as on a redefined name, and under
  `ExitOnError` the undefined flags `-h`/`-help` end the process with status 0, any other
  parse error with status 2.
* A process that stops early is the `error` side of `Except Failure _`.
* The two file loaders (`loadArgumentsConf`, `loadOutputTemplateFile`) are external
  collaborators: the embedding starts from the decoded `argumentsConf` and assumes that the
  template loads.
-/

deriving instance DecidableEq for Except

namespace GitopsArgparser

/-! ## Values and failures -/

/-- The dynamic value held by an `interface{}` field after YAML decoding. A value that is
neither nil, a string, an integer nor a boolean (a float, a list, a map) is represented by the
text that `fmt.Sprintf("%v", _)` prints for it, the only way the program looks at it. -/
inductive GoValue where
  | nil
  | str (s : String)
  | int (i : Int)
  | bool (b : Bool)
  | other (rendered : String)
  deriving DecidableEq, Repr

/-- How the process can stop before rendering. -/
inductive Failure where
  /-- A run-time panic (slice bounds out of range, invalid or redefined flag name). -/
  | panic
  /-- The call `log.Fatalf` of `init` for the argument of the given name. -/
  | fatal (argName : String)
  /-- The call `os.Exit status` made by `flag.Parse` under `ExitOnError`. -/
  | exit (status : Nat)
  deriving DecidableEq, Repr

/-- The exit status of the process for each kind of failure. -/
def Failure.status : Failure → Nat
  | .panic => 2
  | .fatal _ => 1
  | .exit s => s

/-! ## Package strconv -/

/-- Width of `int`: `strconv.IntSize`. -/
def intSize : Nat := 64

/-- The largest `uint64`. -/
def maxUint64 : Nat := 2 ^ 64 - 1

/-- The character of a decimal digit `d < 10`. -/
def digitChar (d : Nat) : Char := Char.ofNat (48 + d)

/-- Decimal digits of `n`, most significant first, pushed in front of `acc`; `fuel` bounds the
number of digits. -/
def formatBits (fuel n : Nat) (acc : List Char) : List Char :=
  match fuel with
  | 0 => acc
  | fuel + 1 =>
    if n / 10 = 0 then digitChar (n % 10) :: acc
    else formatBits fuel (n / 10) (digitChar (n % 10) :: acc)

/-- Decimal text of a natural number (`strconv.FormatUint(n, 10)`). -/
def FormatUint (n : Nat) : List Char := formatBits (n + 1) n []

/-- Decimal text of an integer (`strconv.FormatInt(i, 10)`): a minus sign for a negative
number, then the digits of its magnitude without leading zeros. -/
def FormatInt (i : Int) : String :=
  if i < 0 then String.mk ('-' :: FormatUint i.natAbs) else String.mk (FormatUint i.natAbs)

/-- Model of `strconv.Itoa`. -/
def Itoa (i : Int) : String := FormatInt i

/-- Model of `strconv.FormatBool`. -/
def FormatBool (b : Bool) : String := if b then "true" else "false"

/-- The two errors of a `*strconv.NumError`. -/
inductive NumError where
  | ErrSyntax
  | ErrRange
  deriving DecidableEq, Repr

/-- Model of `lower(c)` of strconv: `c | (0x78 - 0x58)`, on byte codes. -/
def lower (c : Nat) : Nat := c ||| 32

/-- State of the digit loop of `ParseUint`: the number read so far and whether an underscore
was seen. -/
structure UintState where
  n : Nat
  underscores : Bool
  deriving DecidableEq, Repr

/-- One iteration of the digit loop of `strconv.ParseUint` at byte `c`. -/
def parseUintStep (base : Nat) (base0 : Bool) (cutoff maxVal : Nat) (st : UintState) (c : Char) :
    Except NumError UintState :=
  let b := c.toNat
  if b = 95 ∧ base0 = true then .ok { st with underscores := true }
  else
    let d? : Option Nat :=
      if 48 ≤ b ∧ b ≤ 57 then some (b - 48)
      else if 97 ≤ lower b ∧ lower b ≤ 122 then some (lower b - 97 + 10)
      else none
    match d? with
    | none => .error .ErrSyntax
    | some d =>
      if d ≥ base then .error .ErrSyntax
      else if st.n ≥ cutoff then .error .ErrRange
      else
        let n := (st.n * base) % 2 ^ 64
        let n1 := (n + d) % 2 ^ 64
        if n1 < n ∨ n1 > maxVal then .error .ErrRange
        else .ok { st with n := n1 }

/-- The digit loop of `strconv.ParseUint`. -/
def parseUintLoop (base : Nat) (base0 : Bool) (cutoff maxVal : Nat) :
    UintState → List Char → Except NumError UintState
  | st, [] => .ok st
  | st, c :: cs =>
    match parseUintStep base base0 cutoff maxVal st c with
    | .error e => .error e
    | .ok st1 => parseUintLoop base base0 cutoff maxVal st1 cs

/-- What `underscoreOK` remembers of the last byte seen. -/
inductive Saw where
  | start
  | digit
  | underscore
  | none
  deriving DecidableEq, Repr

/-- The scan of `underscoreOK` over the number proper. -/
def underscoreScan (hex : Bool) : Saw → List Char → Bool
  | saw, [] => decide (saw ≠ Saw.underscore)
  | saw, c :: cs =>
    let b := c.toNat
    if (48 ≤ b ∧ b ≤ 57) ∨ (hex = true ∧ 97 ≤ lower b ∧ lower b ≤ 102) then
      underscoreScan hex Saw.digit cs
    else if b = 95 then
      if saw ≠ Saw.digit then false else underscoreScan hex Saw.underscore cs
    else if saw = Saw.underscore then false
    else underscoreScan hex Saw.none cs

/-- Model of `strconv.underscoreOK`: underscores may only separate digits, or a base mark from
a digit. -/
def underscoreOK (s : List Char) : Bool :=
  let s := match s with
    | c :: t => if c = '-' ∨ c = '+' then t else s
    | [] => s
  match s with
  | c0 :: c1 :: t =>
    if c0 = '0' ∧ (lower c1.toNat = 98 ∨ lower c1.toNat = 111 ∨ lower c1.toNat = 120) then
      underscoreScan (decide (lower c1.toNat = 120)) Saw.digit t
    else underscoreScan false Saw.start s
  | _ => underscoreScan false Saw.start s

/-- Model of `strconv.ParseUint(s, base, bitSize)` for `base` 0 or 2..36 and `bitSize` 0..64. -/
def ParseUint (s : List Char) (base bitSize : Nat) : Except NumError Nat :=
  if s = [] then .error .ErrSyntax
  else
    let base0 := decide (base = 0)
    let c1 := lower (s.getD 1 '0').toNat
    let (base, digits) : Nat × List Char :=
      if base = 0 then
        if s.head? = some '0' then
          if s.length ≥ 3 ∧ c1 = 98 then (2, s.drop 2)
          else if s.length ≥ 3 ∧ c1 = 111 then (8, s.drop 2)
          else if s.length ≥ 3 ∧ c1 = 120 then (16, s.drop 2)
          else (8, s.drop 1)
        else (10, s)
      else (base, s)
    let bitSize := if bitSize = 0 then intSize else bitSize
    let cutoff := maxUint64 / base + 1
    let maxVal := 2 ^ bitSize - 1
    match parseUintLoop base base0 cutoff maxVal ⟨0, false⟩ digits with
    | .error e => .error e
    | .ok st =>
      if st.underscores = true ∧ underscoreOK s = false then .error .ErrSyntax
      else .ok st.n

/-- Reinterpretation of a `uint64` as an `int64`. -/
def toInt64 (u : Nat) : Int := if u < 2 ^ 63 then (u : Int) else (u : Int) - 2 ^ 64

/-- Negation of an `int64`, wrapping. -/
def negInt64 (i : Int) : Int := if i = -(2 ^ 63) then i else -i

/-- Model of `strconv.ParseInt(s, base, bitSize)`. -/
def ParseInt (s : String) (base bitSize : Nat) : Except NumError Int :=
  match s.data with
  | [] => .error .ErrSyntax
  | c :: t =>
    let neg := decide (c = '-')
    let rest := if c = '+' ∨ c = '-' then t else c :: t
    let bits := if bitSize = 0 then intSize else bitSize
    let cutoff := 2 ^ (bits - 1)
    let checked (un : Nat) : Except NumError Int :=
      if neg = false ∧ un ≥ cutoff then .error .ErrRange
      else if neg = true ∧ un > cutoff then .error .ErrRange
      else .ok (if neg then negInt64 (toInt64 un) else toInt64 un)
    match ParseUint rest base bitSize with
    | .error .ErrSyntax => .error .ErrSyntax
    | .error .ErrRange => checked (2 ^ bits - 1)
    | .ok un => checked un

/-- Model of `strconv.Atoi(s)`: as documented, `ParseInt(s, 10, 0)` converted to `int`. -/
def Atoi (s : String) : Except NumError Int := ParseInt s 10 0

/-- Model of `strconv.ParseBool`. -/
def ParseBool (s : String) : Except NumError Bool :=
  if s = "1" ∨ s = "t" ∨ s = "T" ∨ s = "TRUE" ∨ s = "true" ∨ s = "True" then .ok true
  else if s = "0" ∨ s = "f" ∨ s = "F" ∨ s = "FALSE" ∨ s = "false" ∨ s = "False" then .ok false
  else .error .ErrSyntax

/-! ## Package fmt -/

/-- Model of `fmt.Sprintf("%v", v)` for a decoded YAML value. -/
def Sprintf : GoValue → String
  | .nil => "<nil>"
  | .str s => s
  | .int i => FormatInt i
  | .bool b => FormatBool b
  | .other rendered => rendered

/-! ## Package strings -/

/-- Model of `strings.HasPrefix`. -/
def HasPrefix (s pre : String) : Bool := pre.data.isPrefixOf s.data

/-- Model of `strings.Contains(s, "=")`, for a one-byte needle `c`. -/
def ContainsByte (s : String) (c : Char) : Bool := s.data.contains c

/-! ## Package flag -/

/-- The three implementations of `flag.Value` that the program creates, with the value each
one points to. -/
inductive Value where
  | stringValue (s : String)
  | intValue (i : Int)
  | boolValue (b : Bool)
  deriving DecidableEq, Repr

/-- The method `String()` of a flag value (the text that `%v` prints for it). -/
def Value.GoString : Value → String
  | .stringValue s => s
  | .intValue i => Itoa i
  | .boolValue b => FormatBool b

/-- The method `IsBoolFlag()`: only `*boolValue` has it, and it returns true. -/
def Value.IsBoolFlag : Value → Bool
  | .boolValue _ => true
  | _ => false

/-- The method `Set(s)` of a flag value: the new value, or the parse error. -/
def Value.Set : Value → String → Except NumError Value
  | .stringValue _, s => .ok (.stringValue s)
  | .intValue _, s =>
    match ParseInt s 0 intSize with
    | .ok v => .ok (.intValue v)
    | .error e => .error e
  | .boolValue _, s =>
    match ParseBool s with
    | .ok v => .ok (.boolValue v)
    | .error e => .error e

/-- A `flag.Flag`. -/
structure Flag where
  Name : String
  Usage : String
  Value : Value
  DefValue : String
  deriving DecidableEq, Repr

/-- A `flag.FlagSet`: the map `formal` from names to flags, kept as the list of its entries in
the order of definition (no two entries share a name), and the arguments not yet parsed. The
map `actual` of the flags that were set is only read by `Visit`, which the program does not
call, and is left out. -/
structure FlagSet where
  formal : List Flag
  args : List String
  deriving DecidableEq, Repr

/-- The lookup `f.formal[name]`. -/
def FlagSet.lookup (f : FlagSet) (name : String) : Option Flag :=
  f.formal.find? (fun fl => decide (fl.Name = name))

/-- Model of `FlagSet.Var`. It panics on a name that begins with `-` (`flag "..." begins
with -`), on a name that contains `=` (`flag "..." contains =`) and on a name that is already
defined (`flag redefined: ...`); otherwise it records the flag, whose default text is
`value.String()`. -/
def FlagSet.Var (f : FlagSet) (value : Value) (name usage : String) : Except Failure FlagSet :=
  if HasPrefix name "-" = true then .error .panic
  else if ContainsByte name '=' = true then .error .panic
  else if (f.lookup name).isSome = true then .error .panic
  else .ok { f with formal := f.formal ++ [⟨name, usage, value, value.GoString⟩] }

/-- Model of `flag.String(name, value, usage)` on the flag set. -/
def FlagSet.defString (f : FlagSet) (name value usage : String) : Except Failure FlagSet :=
  f.Var (.stringValue value) name usage

/-- Model of `flag.Int(name, value, usage)` on the flag set. -/
def FlagSet.defInt (f : FlagSet) (name : String) (value : Int) (usage : String) :
    Except Failure FlagSet :=
  f.Var (.intValue value) name usage

/-- Model of `flag.Bool(name, value, usage)` on the flag set. -/
def FlagSet.defBool (f : FlagSet) (name : String) (value : Bool) (usage : String) :
    Except Failure FlagSet :=
  f.Var (.boolValue value) name usage

/-- The effect of a successful `flag.Value.Set(...)` through the pointer held in the map. -/
def FlagSet.store (f : FlagSet) (name : String) (v : Value) : FlagSet :=
  { f with formal := f.formal.map (fun fl => if fl.Name = name then { fl with Value := v } else fl) }

/-- The errors of `parseOne`: `flag.ErrHelp`, or an error made by `failf`. -/
inductive FlagError where
  | ErrHelp
  | failf
  deriving DecidableEq, Repr

/-- The result `(bool, error)` of `parseOne`, with the flag set as it leaves it. -/
inductive ParseOneResult where
  /-- The result `(true, nil)`: a flag was consumed. -/
  | seen (f : FlagSet)
  /-- The result `(false, nil)`: the flags are over. -/
  | done (f : FlagSet)
  /-- The result `(false, err)`. -/
  | failed (err : FlagError)
  deriving DecidableEq, Repr

/-- The search of `parseOne` for an `=`, from index 1 on: the name before it and the value
after it, when there is one. -/
def splitNameValue (name : List Char) : List Char × Option (List Char) :=
  match name with
  | [] => ([], none)
  | c :: t =>
    match t.span (fun x => decide (x ≠ '=')) with
    | (before, []) => (c :: before, none)
    | (before, _ :: value) => (c :: before, some value)

/-- How `parseOne` reads the argument at the head of `f.args`. -/
inductive Token where
  /-- Shorter than two bytes, or not beginning with `-`: the flags are over. -/
  | nonFlag
  /-- The argument `--`, which terminates the flags. -/
  | terminator
  /-- The error `bad flag syntax`. -/
  | badSyntax
  /-- A flag `-name`, `--name`, `-name=value` or `--name=value`. -/
  | flag (name : String) (given : Option String)
  deriving DecidableEq, Repr

/-- The first half of `parseOne`: the syntax of the argument `s`. -/
def flagSyntax (s : String) : Token :=
  if s.data.length < 2 ∨ s.data.head? ≠ some '-' then .nonFlag
  else
    let numMinuses := if s.data.get? 1 = some '-' then 2 else 1
    if numMinuses = 2 ∧ s.data.length = 2 then .terminator
    else
      let name := s.data.drop numMinuses
      if name.length = 0 ∨ name.head? = some '-' ∨ name.head? = some '=' then .badSyntax
      else .flag (String.mk (splitNameValue name).1) ((splitNameValue name).2.map String.mk)

/-- Model of `FlagSet.parseOne`. -/
def FlagSet.parseOne (f : FlagSet) : ParseOneResult :=
  match f.args with
  | [] => .done f
  | s :: rest =>
    match flagSyntax s with
    | .nonFlag => .done f
    | .terminator => .done { f with args := rest }
    | .badSyntax => .failed .failf
    | .flag name given =>
      match f.lookup name with
      | none => if name = "help" ∨ name = "h" then .failed .ErrHelp else .failed .failf
      | some fl =>
        if fl.Value.IsBoolFlag = true then
          match fl.Value.Set (given.getD "true") with
          | .error _ => .failed .failf
          | .ok v => .seen (FlagSet.store { f with args := rest } name v)
        else
          match given, rest with
          | some value, _ =>
            match fl.Value.Set value with
            | .error _ => .failed .failf
            | .ok v => .seen (FlagSet.store { f with args := rest } name v)
          | none, value :: rest1 =>
            match fl.Value.Set value with
            | .error _ => .failed .failf
            | .ok v => .seen (FlagSet.store { f with args := rest1 } name v)
          | none, [] => .failed .failf

/-- The loop of `FlagSet.Parse` under `ExitOnError`; `none` when `fuel` runs out. -/
def FlagSet.parseLoop : Nat → FlagSet → Option (Except Failure FlagSet)
  | 0, _ => none
  | fuel + 1, f =>
    match f.parseOne with
    | .seen f1 => FlagSet.parseLoop fuel f1
    | .done f1 => some (.ok f1)
    | .failed .ErrHelp => some (.error (.exit 0))
    | .failed .failf => some (.error (.exit 2))

/-- Model of `FlagSet.Parse(arguments)` under `ExitOnError`. Every round that goes on consumes an
argument, so the fuel given never runs out (`parseLoop_isSome`). -/
def FlagSet.Parse (f : FlagSet) (arguments : List String) : Except Failure FlagSet :=
  match FlagSet.parseLoop (arguments.length + 1) { f with args := arguments } with
  | some r => r
  | none => .error .panic

/-- Lexicographical order of Go strings (`a <= b`). -/
def nameLE (a b : String) : Prop := a.data ≤ b.data

instance : DecidableRel nameLE := fun a b => inferInstanceAs (Decidable (a.data ≤ b.data))

instance : IsTotal String nameLE := ⟨fun a b => le_total a.data b.data⟩

instance : IsTrans String nameLE := ⟨fun _ _ _ h1 h2 => le_trans (α := List Char) h1 h2⟩

instance : IsTotal Flag (fun a b => nameLE a.Name b.Name) :=
  ⟨fun a b => le_total a.Name.data b.Name.data⟩

instance : IsTrans Flag (fun a b => nameLE a.Name b.Name) :=
  ⟨fun _ _ _ h1 h2 => le_trans (α := List Char) h1 h2⟩

/-- Model of `sortFlags`: the flags of the map in lexicographical order of their names. -/
def sortFlags (flags : List Flag) : List Flag :=
  flags.insertionSort (fun a b => nameLE a.Name b.Name)

/-- Model of `FlagSet.VisitAll(fn)`, as the list of the flags in the order `fn` is called on them. -/
def FlagSet.VisitAll (f : FlagSet) : List Flag := sortFlags f.formal

/-! ## The program -/

/-- An `ArgumentValue`, as used in templates. -/
structure ArgumentValue where
  Name : String
  Value : GoValue
  deriving DecidableEq, Repr

/-- An `argumentDef` of the configuration file. -/
structure argumentDef where
  Long : String
  DataType : String
  Help : String
  DefaultValue : GoValue
  deriving DecidableEq, Repr

/-- The decoded configuration file. -/
structure argumentsConf where
  Arguments : List argumentDef
  deriving DecidableEq, Repr

/-- The slice expression `xs[lo:hi]`, which panics out of range. The capacity of the slice is
taken to be its length. -/
def goSlice {α : Type} (xs : List α) (lo hi : Nat) : Except Failure (List α) :=
  if lo ≤ hi ∧ hi ≤ xs.length then .ok ((xs.take hi).drop lo) else .error .panic

/-- The loop of `init` over `os.Args` from index `i` on: the index of the first token that
begins with `-`, and 0, the initial value of `sliceFrom`, when there is none. -/
def scanSliceFrom : Nat → List String → Nat
  | _, [] => 0
  | i, x :: xs => if HasPrefix x "-" = true then i else scanSliceFrom (i + 1) xs

/-- The value of `sliceFrom` after the loop. -/
def sliceFrom (osArgs : List String) : Nat := scanSliceFrom 0 osArgs

/-- The first statement group of `init`:
`os.Args = append(os.Args[:1], os.Args[sliceFrom:]...)`. The built-in `append` copies as
`memmove` does, so the result is the one-element prefix followed by the elements from
`sliceFrom` on, whether or not it is written over the backing array of `os.Args`. -/
def tweakArgs (osArgs : List String) : Except Failure (List String) :=
  match goSlice osArgs 0 1 with
  | .error e => .error e
  | .ok first =>
    match goSlice osArgs (sliceFrom osArgs) osArgs.length with
    | .error e => .error e
    | .ok rest => .ok (first ++ rest)

/-- The body of the loop of `init` over the argument definitions. -/
def registerArgument (fs : FlagSet) (argDef : argumentDef) : Except Failure FlagSet :=
  if argDef.DataType = "string" then
    fs.defString argDef.Long (Sprintf argDef.DefaultValue) argDef.Help
  else if argDef.DataType = "int" then
    match Atoi (Sprintf argDef.DefaultValue) with
    | .error _ => .error (.fatal argDef.Long)
    | .ok val => fs.defInt argDef.Long val argDef.Help
  else if argDef.DataType = "bool" then
    match ParseBool (Sprintf argDef.DefaultValue) with
    | .error _ => .error (.fatal argDef.Long)
    | .ok val => fs.defBool argDef.Long val argDef.Help
  else .ok fs

/-- The loop of `init` that creates the flags from the argument definitions. -/
def registerArguments : FlagSet → List argumentDef → Except Failure FlagSet
  | fs, [] => .ok fs
  | fs, argDef :: rest =>
    match registerArgument fs argDef with
    | .error e => .error e
    | .ok fs1 => registerArguments fs1 rest

/-- The parser built from a configuration, starting from the empty `flag.CommandLine`: in
this program no imported package defines a flag of its own. -/
def buildParser (argsConf : argumentsConf) : Except Failure FlagSet :=
  registerArguments ⟨[], []⟩ argsConf.Arguments

/-- The process state that `init` hands to `main`. -/
structure ProcessState where
  osArgs : List String
  CommandLine : FlagSet
  deriving DecidableEq, Repr

/-- The function `init`, given `os.Args` and the configuration that `loadArgumentsConf`
returns. -/
def init (osArgs : List String) (argsConf : argumentsConf) : Except Failure ProcessState :=
  match tweakArgs osArgs with
  | .error e => .error e
  | .ok osArgs1 =>
    match buildParser argsConf with
    | .error e => .error e
    | .ok fs => .ok ⟨osArgs1, fs⟩

/-- The callback of `main` given to `VisitAll`. -/
def toArgumentValue (fl : Flag) : ArgumentValue := ⟨fl.Name, .str fl.Value.GoString⟩

/-- The function `main` up to the render context: `flag.Parse()`, that is
`CommandLine.Parse(os.Args[1:])`, then the list `allArgs` collected by `VisitAll`. -/
def main (st : ProcessState) : Except Failure (List ArgumentValue) :=
  match goSlice st.osArgs 1 st.osArgs.length with
  | .error e => .error e
  | .ok arguments =>
    match st.CommandLine.Parse arguments with
    | .error e => .error e
    | .ok fs => .ok (fs.VisitAll.map toArgumentValue)

/-- A run of the program: `init`, then `main`. -/
def run (osArgs : List String) (argsConf : argumentsConf) : Except Failure (List ArgumentValue) :=
  match init osArgs argsConf with
  | .error e => .error e
  | .ok st => main st

/-! ## Vocabulary of the claims -/

/-- A definition whose `dataType` is one of the three supported kinds. -/
def supported (d : argumentDef) : Bool :=
  decide (d.DataType = "string" ∨ d.DataType = "int" ∨ d.DataType = "bool")

/-- The default of a definition coerced to its declared type, as `init` computes it; `none`
for an unsupported type and for a default that does not parse. -/
def coerceDefault (d : argumentDef) : Option Value :=
  if d.DataType = "string" then some (.stringValue (Sprintf d.DefaultValue))
  else if d.DataType = "int" then
    match Atoi (Sprintf d.DefaultValue) with
    | .ok val => some (.intValue val)
    | .error _ => none
  else if d.DataType = "bool" then
    match ParseBool (Sprintf d.DefaultValue) with
    | .ok val => some (.boolValue val)
    | .error _ => none
  else none

/-- An `int` definition whose default text is not a base-10 integer, or a `bool` definition
whose default text is not a boolean literal. -/
def badDefault (d : argumentDef) : Bool :=
  (decide (d.DataType = "int") && !(Atoi (Sprintf d.DefaultValue)).toBool) ||
  (decide (d.DataType = "bool") && !(ParseBool (Sprintf d.DefaultValue)).toBool)

/-- The flag that `init` registers for a definition, when it registers one. -/
def flagOf (d : argumentDef) : Option Flag :=
  (coerceDefault d).map (fun v => ⟨d.Long, d.Help, v, v.GoString⟩)

/-- The names of the supported-type definitions, in declaration order. -/
def supportedNames (argsConf : argumentsConf) : List String :=
  (argsConf.Arguments.filter supported).map (fun d => d.Long)

/-- No two definitions of the schema share a name. -/
def uniqueNames (argsConf : argumentsConf) : Prop :=
  (argsConf.Arguments.map (fun d => d.Long)).Nodup

/-- Every `int` and `bool` default of the schema parses. -/
def coercibleDefaults (argsConf : argumentsConf) : Prop :=
  ∀ d ∈ argsConf.Arguments, badDefault d = false

/-- A name that `FlagSet.Var` accepts: it neither begins with `-` nor contains `=`. -/
def acceptedName (n : String) : Prop :=
  HasPrefix n "-" = false ∧ ContainsByte n '=' = false

/-- A name that can be passed on the command line as `-name`: accepted by `FlagSet.Var` and
not empty. -/
def wellFormedName (n : String) : Prop :=
  n ≠ "" ∧ acceptedName n

instance (n : String) : Decidable (acceptedName n) := by
  unfold acceptedName; infer_instance

instance (n : String) : Decidable (wellFormedName n) := by
  unfold wellFormedName; infer_instance

instance (argsConf : argumentsConf) : Decidable (uniqueNames argsConf) := by
  unfold uniqueNames; infer_instance

instance (argsConf : argumentsConf) : Decidable (coercibleDefaults argsConf) := by
  unfold coercibleDefaults; infer_instance

/-- The string form of the declared default coerced to the declared type: for `int` the
decimal rendering of the default text parsed as a base-10 integer, for `bool` the text `true`
or `false` of the parsed boolean literal, for `string` the default text itself. -/
def defaultText (d : argumentDef) : Option String :=
  if d.DataType = "string" then some (Sprintf d.DefaultValue)
  else if d.DataType = "int" then
    match Atoi (Sprintf d.DefaultValue) with
    | .ok i => some (Itoa i)
    | .error _ => none
  else if d.DataType = "bool" then
    match ParseBool (Sprintf d.DefaultValue) with
    | .ok b => some (FormatBool b)
    | .error _ => none
  else none

/-- The token `t`, read as a flag by the parser, names `n`: it is `-n`, `--n`, `-n=value` or
`--n=value`. -/
def passesFlag (n : String) (t : String) : Prop :=
  ∃ given, flagSyntax t = .flag n given

/-- The token `-n` that passes the flag named `n`. -/
def dashed (n : String) : String := "-" ++ n

/-- The tokens `-flag1 val1 -flag2 val2 ...` of a list of flag/value pairs. -/
def flagValueTokens : List (String × String) → List String
  | [] => []
  | p :: ps => dashed p.1 :: p.2 :: flagValueTokens ps

/-- The string form of the literal `val` read at the data type `dataType`, when `val` is a
valid literal of that type: the text itself for `string`, the decimal rendering of the integer
for `int` (read as the flag package reads it, base mark and underscores allowed), `true` or
`false` for `bool`. -/
def literalText (dataType val : String) : Option String :=
  if dataType = "string" then some val
  else if dataType = "int" then
    match ParseInt val 0 intSize with
    | .ok i => some (Itoa i)
    | .error _ => none
  else if dataType = "bool" then
    match ParseBool val with
    | .ok b => some (FormatBool b)
    | .error _ => none
  else none

/-- Every supported-type definition of the schema has a well-formed flag name. -/
def wellFormedNames (argsConf : argumentsConf) : Prop :=
  ∀ d ∈ argsConf.Arguments, supported d = true → wellFormedName d.Long

instance (argsConf : argumentsConf) : Decidable (wellFormedNames argsConf) := by
  unfold wellFormedNames; infer_instance

/-! ## Example schemas -/

/-- Two string arguments declared in the order `zeta`, `alpha`. -/
def schemaZetaAlpha : argumentsConf :=
  ⟨[⟨"zeta", "string", "last letter", .str "z"⟩, ⟨"alpha", "string", "first letter", .str "a"⟩]⟩

/-- The schema of the specification: `{long: foo, dataType: int, defaultValue: 5}`. -/
def schemaFoo : argumentsConf := ⟨[⟨"foo", "int", "a number", .int 5⟩]⟩

/-- A schema with one argument of each supported type and one of an unsupported type. -/
def schemaMixed : argumentsConf :=
  ⟨[⟨"msg", "string", "a message", .str "none"⟩, ⟨"foo", "int", "a number", .int 5⟩,
    ⟨"dry", "bool", "dry run", .bool false⟩, ⟨"ratio", "float", "a ratio", .other "1.5"⟩]⟩

/-- A string argument whose name contains `=`. -/
def schemaEqualsName : argumentsConf := ⟨[⟨"a=b", "string", "", .str "x"⟩]⟩

/-- A string argument whose name contains `=`, declared before an `int` argument whose
default is not a number. -/
def schemaEqualsNameBadInt : argumentsConf :=
  ⟨[⟨"a=b", "string", "", .str "x"⟩, ⟨"n", "int", "", .str "notanumber"⟩]⟩

/-- The schema `{dataType: int, defaultValue: notanumber}` of the specification. -/
def schemaBadInt : argumentsConf := ⟨[⟨"n", "int", "", .str "notanumber"⟩]⟩

/-- The schema of the specification followed by an `int` argument whose default is not a
number. -/
def schemaFooBadBar : argumentsConf :=
  ⟨[⟨"foo", "int", "a number", .int 5⟩, ⟨"bar", "int", "another number", .str "notanumber"⟩]⟩

/-- A boolean argument and an integer argument. -/
def schemaDryFoo : argumentsConf :=
  ⟨[⟨"dry", "bool", "dry run", .bool true⟩, ⟨"foo", "int", "a number", .int 5⟩]⟩

theorem scanSliceFrom_none (k : Nat) (xs : List String)
    (h : ∀ x ∈ xs, HasPrefix x "-" = false) : scanSliceFrom k xs = 0 := by
  induction xs generalizing k with
  | nil => rfl
  | cons x xs ih =>
    have hx : HasPrefix x "-" = false := h x (List.mem_cons_self _ _)
    simp only [scanSliceFrom, hx]
    exact ih (k + 1) (fun y hy => h y (List.mem_cons_of_mem _ hy))

theorem scanSliceFrom_first (k : Nat) (xs : List String) (i : Nat) (hi : i < xs.length)
    (hdash : HasPrefix (xs.get ⟨i, hi⟩) "-" = true)
    (hfirst : ∀ j (hj : j < xs.length), j < i → HasPrefix (xs.get ⟨j, hj⟩) "-" = false) :
    scanSliceFrom k xs = k + i := by
  induction xs generalizing k i with
  | nil => simp at hi
  | cons x xs ih =>
    cases i with
    | zero =>
      have hx : HasPrefix x "-" = true := by simpa using hdash
      simp [scanSliceFrom, hx]
    | succ i =>
      have hx : HasPrefix x "-" = false := by
        simpa using hfirst 0 (Nat.succ_pos _) (Nat.succ_pos _)
      have hi1 : i < xs.length := Nat.lt_of_succ_lt_succ hi
      have h1 : scanSliceFrom (k + 1) xs = k + 1 + i := by
        apply ih (k + 1) i hi1
        · simpa using hdash
        · intro j hj hji
          simpa using hfirst (j + 1) (Nat.succ_lt_succ hj) (Nat.succ_lt_succ hji)
      simp only [scanSliceFrom, hx]
      rw [h1]
      simp
      omega

theorem scanSliceFrom_bound (k : Nat) (xs : List String) :
    scanSliceFrom k xs = 0 ∨ scanSliceFrom k xs < k + xs.length := by
  induction xs generalizing k with
  | nil => left; rfl
  | cons x xs ih =>
    simp only [scanSliceFrom]
    split
    · right; simp
    · rcases ih (k + 1) with h | h
      · left; exact h
      · right; simp only [List.length_cons]; omega

theorem sliceFrom_le (xs : List String) : sliceFrom xs ≤ xs.length := by
  rcases scanSliceFrom_bound 0 xs with h | h
  · simp [sliceFrom, h]
  · simp only [sliceFrom]; omega

theorem goSlice_from {α : Type} (xs : List α) (lo : Nat) (h : lo ≤ xs.length) :
    goSlice xs lo xs.length = .ok (xs.drop lo) := by
  simp [goSlice, h]

theorem tweakArgs_cons (t0 : String) (rest : List String) :
    tweakArgs (t0 :: rest) = .ok (t0 :: (t0 :: rest).drop (sliceFrom (t0 :: rest))) := by
  have h := sliceFrom_le (t0 :: rest)
  simp only [tweakArgs]
  rw [goSlice_from _ _ h]
  simp [goSlice]

/-- The program reads `os.Args` only through the preprocessed list. -/
theorem run_congr (a b : List String) (argsConf : argumentsConf)
    (h : tweakArgs a = tweakArgs b) : run a argsConf = run b argsConf := by
  simp only [run, init, h]

/-- C3. For a token list `t0 :: rest` whose first token beginning with `-` is at index `i`
(index 0, the program name, included in the scan), the preprocessor returns `t0` followed by
the tokens from index `i` to the end; `prog hello world -x 1` becomes `prog -x 1`, which is
also what `prog -x 1` becomes, so both invocations run alike under every configuration. -/
theorem C3_preprocessing (t0 : String) (rest : List String) (i : Nat)
    (hi : i < (t0 :: rest).length)
    (hdash : HasPrefix ((t0 :: rest).get ⟨i, hi⟩) "-" = true)
    (hfirst : ∀ j (hj : j < (t0 :: rest).length), j < i →
      HasPrefix ((t0 :: rest).get ⟨j, hj⟩) "-" = false) :
    tweakArgs (t0 :: rest) = .ok (t0 :: (t0 :: rest).drop i) ∧
    tweakArgs ["prog", "hello", "world", "-x", "1"] = .ok ["prog", "-x", "1"] ∧
    tweakArgs ["prog", "-x", "1"] = .ok ["prog", "-x", "1"] ∧
    ∀ argsConf, run ["prog", "hello", "world", "-x", "1"] argsConf
      = run ["prog", "-x", "1"] argsConf := by
  refine ⟨?_, by decide, by decide, fun argsConf => run_congr _ _ _ (by decide)⟩
  rw [tweakArgs_cons]
  have h := scanSliceFrom_first 0 (t0 :: rest) i hi hdash hfirst
  simp only [sliceFrom, h, Nat.zero_add]

theorem C3_preprocessing_witness :
    tweakArgs ("prog" :: ["note", "-a", "x", "-b"]) =
      .ok ("prog" :: ("prog" :: ["note", "-a", "x", "-b"]).drop 2) :=
  (C3_preprocessing "prog" ["note", "-a", "x", "-b"] 2 (by decide) (by decide)
    (by
      intro j hj hji
      have hj2 : j = 0 ∨ j = 1 := by omega
      rcases hj2 with rfl | rfl <;> rfl)).1

/-- C4 (the code at the failing input). With no token beginning with `-` the loop leaves
`sliceFrom = 0`, and `append(os.Args[:1], os.Args[0:]...)` puts the program name in front of
the whole original list: the result is one token longer than the original list, not equal
to it. -/
theorem C4_no_flag_token_duplicates_program_name :
    sliceFrom ["prog", "hello"] = 0 ∧
    tweakArgs ["prog", "hello"] = .ok ["prog", "prog", "hello"] ∧
    tweakArgs ["prog", "hello"] ≠ .ok ["prog", "hello"] := by
  decide

/-- C10. For every non-empty token list both slice expressions of the preprocessor,
`os.Args[:1]` and `os.Args[sliceFrom:]`, are within range: neither panics, the preprocessor
returns a list, and the first element of that list is the original program name. -/
theorem C10_preprocessor_safety (tokens : List String) (hne : tokens ≠ []) :
    (∃ first, goSlice tokens 0 1 = .ok first) ∧
    (∃ rest, goSlice tokens (sliceFrom tokens) tokens.length = .ok rest) ∧
    sliceFrom tokens ≤ tokens.length ∧
    ∃ out, tweakArgs tokens = .ok out ∧ out.head? = tokens.head? ∧ out.head? ≠ none := by
  cases tokens with
  | nil => exact absurd rfl hne
  | cons t0 rest =>
    have h := sliceFrom_le (t0 :: rest)
    refine ⟨⟨[t0], by simp [goSlice]⟩, ⟨_, goSlice_from _ _ h⟩, h, _, tweakArgs_cons t0 rest, ?_⟩
    simp

theorem C10_preprocessor_safety_witness :
    ∃ out, tweakArgs ["prog"] = .ok out ∧ out.head? = ["prog"].head? ∧ out.head? ≠ none :=
  (C10_preprocessor_safety ["prog"] (by decide)).2.2.2

/-! ## The parser builder -/

theorem Var_ok (fs : FlagSet) (v : Value) (name usage : String) (ha : acceptedName name)
    (hfresh : fs.lookup name = none) :
    fs.Var v name usage = .ok { fs with formal := fs.formal ++ [⟨name, usage, v, v.GoString⟩] } := by
  simp [FlagSet.Var, ha.1, ha.2, hfresh]

theorem Var_ok_inv (fs fs1 : FlagSet) (v : Value) (name usage : String)
    (h : fs.Var v name usage = .ok fs1) :
    fs1 = { fs with formal := fs.formal ++ [⟨name, usage, v, v.GoString⟩] } ∧
      acceptedName name ∧ fs.lookup name = none := by
  unfold FlagSet.Var at h
  split at h
  · cases h
  · split at h
    · cases h
    · split at h
      · cases h
      · rename_i h1 h2 h3
        injection h with h
        refine ⟨h.symm, ⟨by simpa using h1, by simpa using h2⟩, ?_⟩
        simpa using h3

theorem dataType_cases (d : argumentDef) :
    (d.DataType = "string") ∨ (d.DataType = "int" ∧ d.DataType ≠ "string") ∨
    (d.DataType = "bool" ∧ d.DataType ≠ "string" ∧ d.DataType ≠ "int") ∨
    (d.DataType ≠ "string" ∧ d.DataType ≠ "int" ∧ d.DataType ≠ "bool") := by
  by_cases h1 : d.DataType = "string"
  · exact Or.inl h1
  · by_cases h2 : d.DataType = "int"
    · exact Or.inr (Or.inl ⟨h2, h1⟩)
    · by_cases h3 : d.DataType = "bool"
      · exact Or.inr (Or.inr (Or.inl ⟨h3, h1, h2⟩))
      · exact Or.inr (Or.inr (Or.inr ⟨h1, h2, h3⟩))

theorem registerArgument_bad (fs : FlagSet) (d : argumentDef) (hb : badDefault d = true) :
    registerArgument fs d = .error (.fatal d.Long) := by
  rcases dataType_cases d with h | ⟨h, h1⟩ | ⟨h, h1, h2⟩ | ⟨h1, h2, h3⟩
  · simp [badDefault, h] at hb
  · have hb1 : (Atoi (Sprintf d.DefaultValue)).toBool = false := by
      simpa [badDefault, h] using hb
    cases ha : Atoi (Sprintf d.DefaultValue) with
    | error e => simp [registerArgument, h, ha]
    | ok v => simp [ha, Except.toBool] at hb1
  · have hb1 : (ParseBool (Sprintf d.DefaultValue)).toBool = false := by
      simpa [badDefault, h] using hb
    cases ha : ParseBool (Sprintf d.DefaultValue) with
    | error e => simp [registerArgument, h, ha]
    | ok v => simp [ha, Except.toBool] at hb1
  · simp [badDefault, h2, h3] at hb

theorem registerArgument_good (fs : FlagSet) (d : argumentDef) (hb : badDefault d = false) :
    registerArgument fs d =
      match flagOf d with
      | none => .ok fs
      | some fl => fs.Var fl.Value fl.Name fl.Usage := by
  rcases dataType_cases d with h | ⟨h, h1⟩ | ⟨h, h1, h2⟩ | ⟨h1, h2, h3⟩
  · simp [registerArgument, flagOf, coerceDefault, h, FlagSet.defString]
  · cases ha : Atoi (Sprintf d.DefaultValue) with
    | error e => simp [badDefault, h, ha, Except.toBool] at hb
    | ok v => simp [registerArgument, flagOf, coerceDefault, h, ha, FlagSet.defInt]
  · cases ha : ParseBool (Sprintf d.DefaultValue) with
    | error e => simp [badDefault, h, ha, Except.toBool] at hb
    | ok v => simp [registerArgument, flagOf, coerceDefault, h, ha, FlagSet.defBool]
  · simp [registerArgument, flagOf, coerceDefault, h1, h2, h3]

theorem flagOf_isSome (d : argumentDef) (hb : badDefault d = false) :
    (flagOf d).isSome = supported d := by
  rcases dataType_cases d with h | ⟨h, h1⟩ | ⟨h, h1, h2⟩ | ⟨h1, h2, h3⟩
  · simp [flagOf, coerceDefault, supported, h]
  · cases ha : Atoi (Sprintf d.DefaultValue) with
    | error e => simp [badDefault, h, ha, Except.toBool] at hb
    | ok v => simp [flagOf, coerceDefault, supported, h, ha]
  · cases ha : ParseBool (Sprintf d.DefaultValue) with
    | error e => simp [badDefault, h, ha, Except.toBool] at hb
    | ok v => simp [flagOf, coerceDefault, supported, h, ha]
  · simp [flagOf, coerceDefault, supported, h1, h2, h3]

theorem flagOf_name (d : argumentDef) (fl : Flag) (h : flagOf d = some fl) :
    fl.Name = d.Long ∧ fl.Usage = d.Help ∧ coerceDefault d = some fl.Value ∧
      fl.DefValue = fl.Value.GoString := by
  unfold flagOf at h
  cases hc : coerceDefault d with
  | none => simp [hc] at h
  | some v =>
    simp only [hc, Option.map_some', Option.some.injEq] at h
    subst h
    simp

theorem lookup_eq_none_iff (fs : FlagSet) (n : String) :
    fs.lookup n = none ↔ n ∉ fs.formal.map (fun fl => fl.Name) := by
  simp only [FlagSet.lookup, List.find?_eq_none, List.mem_map, not_exists, not_and,
    decide_eq_true_eq]

theorem lookup_some_mem (fs : FlagSet) (n : String) (fl : Flag) (h : fs.lookup n = some fl) :
    fl ∈ fs.formal ∧ fl.Name = n := by
  unfold FlagSet.lookup at h
  have h1 := List.find?_some h
  have h2 := List.mem_of_find?_eq_some h
  exact ⟨h2, by simpa using h1⟩

theorem filterMap_flagOf_names (defs : List argumentDef)
    (hb : ∀ d ∈ defs, badDefault d = false) :
    (defs.filterMap flagOf).map (fun fl => fl.Name) =
      (defs.filter supported).map (fun d => d.Long) := by
  induction defs with
  | nil => rfl
  | cons d rest ih =>
    have hd := hb d (List.mem_cons_self _ _)
    have ih1 := ih (fun x hx => hb x (List.mem_cons_of_mem _ hx))
    have hs := flagOf_isSome d hd
    cases hf : flagOf d with
    | none =>
      have : supported d = false := by simpa [hf] using hs.symm
      simp [List.filterMap_cons, hf, List.filter_cons, this, ih1]
    | some fl =>
      have : supported d = true := by simpa [hf] using hs.symm
      simp [List.filterMap_cons, hf, List.filter_cons, this, ih1, (flagOf_name d fl hf).1]

theorem registerArguments_ok_inv (defs : List argumentDef) (fs fs1 : FlagSet)
    (h : registerArguments fs defs = .ok fs1) :
    fs1.formal = fs.formal ++ defs.filterMap flagOf ∧ fs1.args = fs.args ∧
    (∀ d ∈ defs, badDefault d = false) ∧
    ((fs.formal.map (fun fl => fl.Name)).Nodup → (fs1.formal.map (fun fl => fl.Name)).Nodup) ∧
    (∀ d ∈ defs, supported d = true → acceptedName d.Long) := by
  induction defs generalizing fs with
  | nil =>
    simp only [registerArguments, Except.ok.injEq] at h
    subst h
    simp
  | cons d rest ih =>
    simp only [registerArguments] at h
    cases hb : badDefault d with
    | true => rw [registerArgument_bad fs d hb] at h; cases h
    | false =>
      rw [registerArgument_good fs d hb] at h
      cases hf : flagOf d with
      | none =>
        simp only [hf] at h
        obtain ⟨h1, h2, h3, h4, h5⟩ := ih fs h
        refine ⟨by simp [List.filterMap_cons, hf, h1], h2, ?_, h4, ?_⟩
        · intro x hx
          rcases List.mem_cons.mp hx with rfl | hx
          · exact hb
          · exact h3 x hx
        · intro x hx hsx
          rcases List.mem_cons.mp hx with rfl | hx
          · have := flagOf_isSome x hb
            simp [hf, hsx] at this
          · exact h5 x hx hsx
      | some fl =>
        simp only [hf] at h
        cases hv : fs.Var fl.Value fl.Name fl.Usage with
        | error e => simp [hv] at h
        | ok fs2 =>
          simp only [hv] at h
          obtain ⟨h1, h2, h3, h4, h5⟩ := ih fs2 h
          obtain ⟨e2, hacc, hfresh⟩ := Var_ok_inv fs fs2 _ _ _ hv
          obtain ⟨hn, hu, hc, hdv⟩ := flagOf_name d fl hf
          have efl : (⟨fl.Name, fl.Usage, fl.Value, fl.Value.GoString⟩ : Flag) = fl := by
            cases fl; simp_all
          rw [efl] at e2
          subst e2
          refine ⟨by simp [List.filterMap_cons, hf, h1], h2, ?_, ?_, ?_⟩
          · intro x hx
            rcases List.mem_cons.mp hx with rfl | hx
            · exact hb
            · exact h3 x hx
          · intro hnd
            apply h4
            simp only [List.map_append, List.map_cons, List.map_nil]
            rw [List.nodup_append]
            refine ⟨hnd, List.nodup_singleton _, ?_⟩
            intro a ha1 ha2
            simp only [List.mem_singleton] at ha2
            subst ha2
            exact (lookup_eq_none_iff fs _).mp hfresh ha1
          · intro x hx hsx
            rcases List.mem_cons.mp hx with rfl | hx
            · rw [← hn]; exact hacc
            · exact h5 x hx hsx

theorem registerArguments_spec (defs : List argumentDef) (fs : FlagSet)
    (hn : (fs.formal.map (fun fl => fl.Name) ++
      (defs.filter supported).map (fun d => d.Long)).Nodup)
    (ha : ∀ d ∈ defs, supported d = true → acceptedName d.Long) :
    registerArguments fs defs =
      match defs.find? badDefault with
      | some d => .error (.fatal d.Long)
      | none => .ok { fs with formal := fs.formal ++ defs.filterMap flagOf } := by
  induction defs generalizing fs with
  | nil => simp [registerArguments]
  | cons d rest ih =>
    simp only [registerArguments]
    cases hb : badDefault d with
    | true => simp [registerArgument_bad fs d hb, List.find?_cons, hb]
    | false =>
      rw [registerArgument_good fs d hb]
      have hs := flagOf_isSome d hb
      have ha1 : ∀ x ∈ rest, supported x = true → acceptedName x.Long :=
        fun x hx => ha x (List.mem_cons_of_mem _ hx)
      cases hf : flagOf d with
      | none =>
        have hsd : supported d = false := by simpa [hf] using hs.symm
        simp only [List.find?_cons, hb, List.filterMap_cons, hf]
        apply ih fs _ ha1
        simpa [List.filter_cons, hsd] using hn
      | some fl =>
        have hsd : supported d = true := by simpa [hf] using hs.symm
        obtain ⟨hname, hu, hc, hdv⟩ := flagOf_name d fl hf
        have efl : (⟨fl.Name, fl.Usage, fl.Value, fl.Value.GoString⟩ : Flag) = fl := by
          cases fl; simp_all
        simp only [List.filter_cons, hsd, if_true, List.map_cons] at hn
        have hfresh : fs.lookup fl.Name = none := by
          rw [lookup_eq_none_iff, hname]
          intro hmem
          have := (List.nodup_append.mp hn).2.2 hmem (List.mem_cons_self _ _)
          exact this
        have hacc : acceptedName fl.Name := by
          rw [hname]; exact ha d (List.mem_cons_self _ _) hsd
        dsimp only
        rw [Var_ok fs _ _ _ hacc hfresh, efl]
        simp only [List.find?_cons, hb, List.filterMap_cons, hf]
        rw [ih _ _ ha1]
        · simp
        · simp only [List.map_append, List.map_cons, List.map_nil, hname, List.append_assoc,
            List.singleton_append]
          exact hn

theorem registerArgument_unsupported (fs : FlagSet) (d : argumentDef)
    (hs : supported d = false) : registerArgument fs d = .ok fs := by
  have h : d.DataType ≠ "string" ∧ d.DataType ≠ "int" ∧ d.DataType ≠ "bool" := by
    simpa [supported, not_or] using hs
  simp [registerArgument, h.1, h.2.1, h.2.2]

/-! ## The parse loop -/

theorem store_names (f : FlagSet) (n : String) (v : Value) :
    (f.store n v).formal.map (fun fl => fl.Name) = f.formal.map (fun fl => fl.Name) := by
  simp only [FlagSet.store, List.map_map]
  apply List.map_congr_left
  intro fl _
  simp only [Function.comp]
  split <;> rfl

theorem store_mem_of_ne (f : FlagSet) (n : String) (v : Value) (fl : Flag)
    (hmem : fl ∈ f.formal) (hne : fl.Name ≠ n) : fl ∈ (f.store n v).formal := by
  simp only [FlagSet.store, List.mem_map]
  exact ⟨fl, hmem, by simp [hne]⟩

theorem parseOne_done_inv (f f1 : FlagSet) (h : f.parseOne = .done f1) :
    f1.formal = f.formal ∧ ∀ t ∈ f1.args, t ∈ f.args := by
  unfold FlagSet.parseOne at h
  split at h
  · injection h with h; subst h; exact ⟨rfl, fun t ht => ht⟩
  · rename_i s rest hargs
    split at h
    · injection h with h; subst h; exact ⟨rfl, fun t ht => ht⟩
    · injection h with h; subst h
      exact ⟨rfl, fun t ht => by rw [hargs]; exact List.mem_cons_of_mem _ ht⟩
    · cases h
    · repeat' split at h
      all_goals cases h

theorem parseOne_seen_inv (f f1 : FlagSet) (h : f.parseOne = .seen f1) :
    ∃ s rest name given v, f.args = s :: rest ∧ flagSyntax s = .flag name given ∧
      f1.formal = (f.store name v).formal ∧ f1.args.length < f.args.length ∧
      (∀ t ∈ f1.args, t ∈ rest) := by
  unfold FlagSet.parseOne at h
  split at h
  · cases h
  · rename_i s rest hargs
    split at h
    · cases h
    · cases h
    · cases h
    · rename_i name given hsyn
      split at h
      · split at h <;> cases h
      · rename_i fl hl
        split at h
        · split at h
          · cases h
          · rename_i v hv
            injection h with h
            subst h
            exact ⟨s, rest, name, given, v, hargs, hsyn, rfl, by simp [FlagSet.store, hargs],
              fun t ht => ht⟩
        · split at h
          · split at h
            · cases h
            · rename_i v hv
              injection h with h
              subst h
              exact ⟨s, rest, name, _, v, hargs, hsyn, rfl, by simp [FlagSet.store, hargs],
                fun t ht => ht⟩
          · split at h
            · cases h
            · rename_i v hv
              injection h with h
              subst h
              refine ⟨s, _, name, _, v, hargs, hsyn, rfl,
                by simp only [FlagSet.store, hargs, List.length_cons]; omega, ?_⟩
              intro t ht
              exact List.mem_cons_of_mem _ ht
          · cases h

theorem parseLoop_isSome (fuel : Nat) (f : FlagSet) (h : f.args.length < fuel) :
    (FlagSet.parseLoop fuel f).isSome = true := by
  induction fuel generalizing f with
  | zero => omega
  | succ fuel ih =>
    unfold FlagSet.parseLoop
    split
    · rename_i f1 h1
      obtain ⟨_, _, _, _, _, _, _, _, hlen, _⟩ := parseOne_seen_inv f f1 h1
      exact ih f1 (by omega)
    · rfl
    · rfl
    · rfl

/-- Induction along the rounds of the parse loop. -/
theorem parseLoop_invariant (R : FlagSet → Prop)
    (hseen : ∀ f f1, R f → f.parseOne = .seen f1 → R f1)
    (hdone : ∀ f f1, R f → f.parseOne = .done f1 → R f1)
    (fuel : Nat) (f r : FlagSet) (h0 : R f) (h : FlagSet.parseLoop fuel f = some (.ok r)) :
    R r := by
  induction fuel generalizing f with
  | zero => simp [FlagSet.parseLoop] at h
  | succ fuel ih =>
    unfold FlagSet.parseLoop at h
    split at h
    · rename_i f1 h1
      exact ih f1 (hseen f f1 h0 h1) h
    · rename_i f1 h1
      simp only [Option.some.injEq, Except.ok.injEq] at h
      subst h
      exact hdone f f1 h0 h1
    · simp at h
    · simp at h

/-- The fuel that `Parse` gives to its loop is enough: its result is the result of the loop. -/
theorem Parse_eq_parseLoop (f : FlagSet) (arguments : List String) :
    FlagSet.parseLoop (arguments.length + 1) { f with args := arguments }
      = some (f.Parse arguments) := by
  have h := parseLoop_isSome (arguments.length + 1) { f with args := arguments } (by simp)
  unfold FlagSet.Parse
  cases hl : FlagSet.parseLoop (arguments.length + 1) { f with args := arguments } with
  | none => rw [hl] at h; cases h
  | some r => rfl

theorem Parse_ok_parseLoop (f r : FlagSet) (arguments : List String)
    (h : f.Parse arguments = .ok r) :
    FlagSet.parseLoop (arguments.length + 1) { f with args := arguments } = some (.ok r) := by
  unfold FlagSet.Parse at h
  split at h
  · rename_i r1 h1
    rw [h1, h]
  · cases h

theorem Parse_names (f r : FlagSet) (arguments : List String) (h : f.Parse arguments = .ok r) :
    r.formal.map (fun fl => fl.Name) = f.formal.map (fun fl => fl.Name) := by
  refine parseLoop_invariant
    (fun g => g.formal.map (fun fl => fl.Name) = f.formal.map (fun fl => fl.Name))
    ?_ ?_ _ { f with args := arguments } r rfl (Parse_ok_parseLoop f r arguments h)
  · intro g g1 hg h1
    obtain ⟨_, _, name, _, v, _, _, hf, _, _⟩ := parseOne_seen_inv g g1 h1
    rw [hf, store_names, hg]
  · intro g g1 hg h1
    rw [(parseOne_done_inv g g1 h1).1, hg]

theorem Parse_untouched (f r : FlagSet) (arguments : List String) (n : String) (fl : Flag)
    (h : f.Parse arguments = .ok r) (hfl : fl ∈ f.formal) (hn : fl.Name = n)
    (hno : ∀ t ∈ arguments, ∀ given, flagSyntax t ≠ .flag n given) : fl ∈ r.formal := by
  have := parseLoop_invariant
    (fun g => fl ∈ g.formal ∧ ∀ t ∈ g.args, ∀ given, flagSyntax t ≠ .flag n given)
    ?_ ?_ _ { f with args := arguments } r ⟨hfl, hno⟩ (Parse_ok_parseLoop f r arguments h)
  · exact this.1
  · intro g g1 ⟨hg1, hg2⟩ h1
    obtain ⟨s, rest, name, given, v, hargs, hsyn, hf, _, hsub⟩ := parseOne_seen_inv g g1 h1
    have hne : fl.Name ≠ name := by
      intro heq
      apply hg2 s (by rw [hargs]; exact List.mem_cons_self _ _) given
      rw [hsyn, ← hn, heq]
    refine ⟨by rw [hf]; exact store_mem_of_ne g name v fl hg1 hne, ?_⟩
    intro t ht
    exact hg2 t (by rw [hargs]; exact List.mem_cons_of_mem _ (hsub t ht))
  · intro g g1 ⟨hg1, hg2⟩ h1
    obtain ⟨hd1, hd2⟩ := parseOne_done_inv g g1 h1
    exact ⟨by rw [hd1]; exact hg1, fun t ht => hg2 t (hd2 t ht)⟩

theorem sortFlags_names (l : List Flag) :
    (sortFlags l).map (fun fl => fl.Name) = (l.map (fun fl => fl.Name)).insertionSort nameLE := by
  unfold sortFlags
  exact List.map_insertionSort _ _ _ _ (fun a _ b _ => Iff.rfl)

theorem collected_names (l : List Flag) :
    (l.map toArgumentValue).map (fun a => a.Name) = l.map (fun fl => fl.Name) := by
  simp [List.map_map, Function.comp, toArgumentValue]

theorem run_cons (t0 : String) (rest : List String) (argsConf : argumentsConf) :
    run (t0 :: rest) argsConf =
      match buildParser argsConf with
      | .error e => .error e
      | .ok fs0 =>
        match fs0.Parse ((t0 :: rest).drop (sliceFrom (t0 :: rest))) with
        | .error e => .error e
        | .ok fs => .ok ((sortFlags fs.formal).map toArgumentValue) := by
  simp only [run, init, tweakArgs_cons]
  cases buildParser argsConf with
  | error e => rfl
  | ok fs0 =>
    simp only [main, FlagSet.VisitAll]
    rw [goSlice_from _ 1 (by simp)]
    simp

theorem run_nil (argsConf : argumentsConf) : run [] argsConf = .error .panic := by
  simp [run, init, tweakArgs, goSlice]

theorem run_ok_inv (osArgs : List String) (argsConf : argumentsConf) (vals : List ArgumentValue)
    (h : run osArgs argsConf = .ok vals) :
    ∃ fs0 fs1, buildParser argsConf = .ok fs0 ∧
      fs0.Parse (osArgs.drop (sliceFrom osArgs)) = .ok fs1 ∧
      vals = (sortFlags fs1.formal).map toArgumentValue ∧ osArgs ≠ [] := by
  cases osArgs with
  | nil => rw [run_nil] at h; cases h
  | cons t0 rest =>
    rw [run_cons] at h
    cases hb : buildParser argsConf with
    | error e => simp [hb] at h
    | ok fs0 =>
      simp only [hb] at h
      cases hp : fs0.Parse ((t0 :: rest).drop (sliceFrom (t0 :: rest))) with
      | error e => simp [hp] at h
      | ok fs1 =>
        simp only [hp, Except.ok.injEq] at h
        exact ⟨fs0, fs1, rfl, hp, h.symm, by simp⟩

theorem buildParser_ok_inv (argsConf : argumentsConf) (fs0 : FlagSet)
    (h : buildParser argsConf = .ok fs0) :
    fs0.formal = argsConf.Arguments.filterMap flagOf ∧
    fs0.formal.map (fun fl => fl.Name) = supportedNames argsConf ∧
    (supportedNames argsConf).Nodup ∧ coercibleDefaults argsConf := by
  obtain ⟨h1, _, h3, h4, _⟩ := registerArguments_ok_inv _ _ _ h
  simp only [List.nil_append] at h1
  have h5 := filterMap_flagOf_names _ h3
  refine ⟨h1, by rw [h1, h5]; rfl, ?_, h3⟩
  have := h4 (by simp)
  rw [h1, h5] at this
  exact this

/-- The names collected by a successful run: the supported names of the schema, sorted. -/
theorem run_ok_names (osArgs : List String) (argsConf : argumentsConf)
    (vals : List ArgumentValue) (h : run osArgs argsConf = .ok vals) :
    vals.map (fun a => a.Name) = (supportedNames argsConf).insertionSort nameLE := by
  obtain ⟨fs0, fs1, hb, hp, hv, _⟩ := run_ok_inv _ _ _ h
  rw [hv, collected_names, sortFlags_names, Parse_names fs0 fs1 _ hp,
    (buildParser_ok_inv _ _ hb).2.1]

theorem defaultText_eq (d : argumentDef) :
    defaultText d = (coerceDefault d).map Value.GoString := by
  unfold defaultText coerceDefault
  split
  · rfl
  · split
    · split <;> simp_all [Value.GoString]
    · split
      · split <;> simp_all [Value.GoString]
      · rfl

theorem mem_filterMap_flagOf (defs : List argumentDef) (d : argumentDef) (v : Value)
    (hd : d ∈ defs) (hc : coerceDefault d = some v) :
    (⟨d.Long, d.Help, v, v.GoString⟩ : Flag) ∈ defs.filterMap flagOf := by
  rw [List.mem_filterMap]
  exact ⟨d, hd, by simp [flagOf, hc]⟩

theorem coerceDefault_isSome (d : argumentDef) (hb : badDefault d = false)
    (hs : supported d = true) : ∃ v, coerceDefault d = some v := by
  have h := flagOf_isSome d hb
  rw [hs] at h
  cases hf : flagOf d with
  | none => simp [hf] at h
  | some fl => exact ⟨fl.Value, (flagOf_name d fl hf).2.2.1⟩

/-! ## Order, completeness and defaults of the collected values -/

/-- C1 (counterexample). The schema declares `zeta` before `alpha`, both string arguments with
unique names; the run succeeds and the collected names are `alpha`, `zeta`: not the
declaration order. -/
theorem C1_declaration_order_counterexample :
    uniqueNames schemaZetaAlpha ∧ coercibleDefaults schemaZetaAlpha ∧
    supportedNames schemaZetaAlpha = ["zeta", "alpha"] ∧
    run ["prog"] schemaZetaAlpha = .ok [⟨"alpha", .str "a"⟩, ⟨"zeta", .str "z"⟩] ∧
    run ["prog", "-zeta", "y", "-alpha", "b"] schemaZetaAlpha
      = .ok [⟨"alpha", .str "b"⟩, ⟨"zeta", .str "y"⟩] := by
  decide

/-- C1 (amended). For every invocation that parses successfully, the sequence of names in the
collected ArgumentValue list is the list of names of the supported-type definitions sorted in
ascending lexicographical order (the order in which `VisitAll` visits the flags); it is the
same for every successful invocation of the schema, whatever flags it passes and in whatever
order. -/
theorem C1_names_in_lexicographical_order (osArgs : List String) (argsConf : argumentsConf)
    (vals : List ArgumentValue) (h : run osArgs argsConf = .ok vals) :
    vals.map (fun a => a.Name) = (supportedNames argsConf).insertionSort nameLE ∧
    (vals.map (fun a => a.Name)).Sorted nameLE ∧
    (vals.map (fun a => a.Name)).Perm (supportedNames argsConf) ∧
    ∀ osArgs1 vals1, run osArgs1 argsConf = .ok vals1 →
      vals1.map (fun a => a.Name) = vals.map (fun a => a.Name) := by
  have h1 := run_ok_names osArgs argsConf vals h
  refine ⟨h1, ?_, ?_, ?_⟩
  · rw [h1]; exact List.sorted_insertionSort nameLE _
  · rw [h1]; exact List.perm_insertionSort nameLE _
  · intro osArgs1 vals1 h2
    rw [h1, run_ok_names osArgs1 argsConf vals1 h2]

theorem C1_names_in_lexicographical_order_witness :
    [⟨"alpha", .str "b"⟩, ⟨"zeta", .str "y"⟩].map (fun a : ArgumentValue => a.Name)
      = (supportedNames schemaZetaAlpha).insertionSort nameLE :=
  (C1_names_in_lexicographical_order ["prog", "-zeta", "y", "-alpha", "b"] schemaZetaAlpha
    [⟨"alpha", .str "b"⟩, ⟨"zeta", .str "y"⟩] (by decide)).1

/-- C2. For every schema with unique names and every invocation that parses successfully,
the collected list has exactly one entry per definition of type string, int or bool (its
names are a duplicate-free rearrangement of the names of these definitions, so there are as
many entries as such definitions) and no entry for a definition of another type, for which
`init` registers no flag. -/
theorem C2_completeness_and_type_skip (osArgs : List String) (argsConf : argumentsConf)
    (vals : List ArgumentValue) (hu : uniqueNames argsConf)
    (h : run osArgs argsConf = .ok vals) :
    (vals.map (fun a => a.Name)).Perm (supportedNames argsConf) ∧
    (vals.map (fun a => a.Name)).Nodup ∧
    vals.length = (argsConf.Arguments.filter supported).length ∧
    (∀ d ∈ argsConf.Arguments, supported d = true → ∃ a ∈ vals, a.Name = d.Long) ∧
    (∀ d ∈ argsConf.Arguments, supported d = false → ∀ a ∈ vals, a.Name ≠ d.Long) ∧
    (∀ d, supported d = false → ∀ fs, registerArgument fs d = .ok fs) := by
  have h1 := run_ok_names osArgs argsConf vals h
  have hperm : (vals.map (fun a => a.Name)).Perm (supportedNames argsConf) := by
    rw [h1]; exact List.perm_insertionSort nameLE _
  have hmem : ∀ n, n ∈ vals.map (fun a => a.Name) ↔ n ∈ supportedNames argsConf :=
    fun n => hperm.mem_iff
  refine ⟨hperm, ?_, ?_, ?_, ?_, fun d hs fs => registerArgument_unsupported fs d hs⟩
  · obtain ⟨fs0, _, hb, _, _, _⟩ := run_ok_inv _ _ _ h
    exact hperm.symm.nodup (buildParser_ok_inv _ _ hb).2.2.1
  · have := hperm.length_eq
    simpa [supportedNames] using this
  · intro d hd hs
    have : d.Long ∈ vals.map (fun a => a.Name) := by
      rw [hmem]
      exact List.mem_map.mpr ⟨d, List.mem_filter.mpr ⟨hd, hs⟩, rfl⟩
    obtain ⟨a, ha, hn⟩ := List.mem_map.mp this
    exact ⟨a, ha, hn⟩
  · intro d hd hs a ha hn
    have : a.Name ∈ supportedNames argsConf := by
      rw [← hmem]; exact List.mem_map.mpr ⟨a, ha, rfl⟩
    obtain ⟨d1, hd1, hn1⟩ := List.mem_map.mp this
    obtain ⟨hd1m, hd1s⟩ := List.mem_filter.mp hd1
    have heq : d1 = d := List.inj_on_of_nodup_map hu hd1m hd (hn1.trans hn)
    rw [heq, hs] at hd1s
    cases hd1s

theorem C2_completeness_and_type_skip_witness :
    ([⟨"dry", .str "false"⟩, ⟨"foo", .str "9"⟩, ⟨"msg", .str "none"⟩].map
        (fun a : ArgumentValue => a.Name)).Perm (supportedNames schemaMixed) ∧
    ([⟨"dry", .str "false"⟩, ⟨"foo", .str "9"⟩, ⟨"msg", .str "none"⟩] :
      List ArgumentValue).length = (schemaMixed.Arguments.filter supported).length :=
  have h := C2_completeness_and_type_skip ["prog", "-foo", "9"] schemaMixed
    [⟨"dry", .str "false"⟩, ⟨"foo", .str "9"⟩, ⟨"msg", .str "none"⟩] (by decide) (by decide)
  ⟨h.1, h.2.2.1⟩

/-- C5. In every successfully parsed invocation in which no token passes the flag of a
declared supported-type argument, that argument is among the collected values, and its value
is the string form of its declared default coerced to its type; the schema
`{long: foo, dataType: int, defaultValue: 5}` run without `-foo` gives `"5"` for `foo`. -/
theorem C5_default_fallback (osArgs : List String) (argsConf : argumentsConf)
    (vals : List ArgumentValue) (d : argumentDef)
    (h : run osArgs argsConf = .ok vals)
    (hd : d ∈ argsConf.Arguments) (hs : supported d = true)
    (hno : ∀ t ∈ osArgs, ¬ passesFlag d.Long t) :
    (∃ txt, defaultText d = some txt ∧ (⟨d.Long, .str txt⟩ : ArgumentValue) ∈ vals ∧
      ∀ a ∈ vals, a.Name = d.Long → a.Value = .str txt) ∧
    run ["prog"] schemaFoo = .ok [⟨"foo", .str "5"⟩] := by
  refine ⟨?_, by decide⟩
  obtain ⟨fs0, fs1, hb, hp, hv, _⟩ := run_ok_inv _ _ _ h
  obtain ⟨hf0, hn0, hnd, hc⟩ := buildParser_ok_inv _ _ hb
  obtain ⟨v, hcv⟩ := coerceDefault_isSome d (hc d hd) hs
  have hmem0 : (⟨d.Long, d.Help, v, v.GoString⟩ : Flag) ∈ fs0.formal := by
    rw [hf0]; exact mem_filterMap_flagOf _ d v hd hcv
  have hmem1 : (⟨d.Long, d.Help, v, v.GoString⟩ : Flag) ∈ fs1.formal := by
    apply Parse_untouched fs0 fs1 _ d.Long _ hp hmem0 rfl
    intro t ht given hsyn
    exact hno t (List.mem_of_mem_drop ht) ⟨given, hsyn⟩
  have hin : (⟨d.Long, .str v.GoString⟩ : ArgumentValue) ∈ vals := by
    rw [hv]
    apply List.mem_map.mpr
    refine ⟨⟨d.Long, d.Help, v, v.GoString⟩, ?_, rfl⟩
    unfold sortFlags
    exact (List.mem_insertionSort _).mpr hmem1
  refine ⟨v.GoString, by rw [defaultText_eq, hcv]; rfl, hin, ?_⟩
  intro a ha hname
  have hnodup : (vals.map (fun a => a.Name)).Nodup := by
    rw [run_ok_names _ _ _ h]
    exact (List.perm_insertionSort nameLE _).symm.nodup hnd
  have := List.inj_on_of_nodup_map hnodup ha hin hname
  rw [this]

theorem C5_default_fallback_witness :
    ∃ txt, defaultText ⟨"foo", "int", "a number", .int 5⟩ = some txt ∧
      (⟨"foo", .str txt⟩ : ArgumentValue) ∈
        [⟨"dry", .str "true"⟩, ⟨"foo", .str "5"⟩, ⟨"msg", .str "hi"⟩] ∧
      ∀ a ∈ ([⟨"dry", .str "true"⟩, ⟨"foo", .str "5"⟩, ⟨"msg", .str "hi"⟩] :
          List ArgumentValue),
        a.Name = "foo" → a.Value = .str txt :=
  (C5_default_fallback ["prog", "note", "-msg", "hi", "-dry"] schemaMixed
    [⟨"dry", .str "true"⟩, ⟨"foo", .str "5"⟩, ⟨"msg", .str "hi"⟩]
    ⟨"foo", "int", "a number", .int 5⟩ (by decide) (by decide) (by decide)
    (by
      intro t ht
      simp only [List.mem_cons, List.mem_singleton, List.not_mem_nil, or_false] at ht
      rcases ht with rfl | rfl | rfl | rfl | rfl <;>
        (rintro ⟨given, hg⟩; revert hg; simp [flagSyntax, splitNameValue, List.span, List.span.loop]))).1

/-! ## Fatal defaults -/

theorem supportedNames_nodup (argsConf : argumentsConf) (hu : uniqueNames argsConf) :
    (supportedNames argsConf).Nodup :=
  List.Nodup.sublist ((List.filter_sublist _).map _) hu

theorem buildParser_spec (argsConf : argumentsConf) (hu : uniqueNames argsConf)
    (ha : ∀ d ∈ argsConf.Arguments, supported d = true → acceptedName d.Long) :
    buildParser argsConf =
      match argsConf.Arguments.find? badDefault with
      | some d => .error (.fatal d.Long)
      | none => .ok ⟨argsConf.Arguments.filterMap flagOf, []⟩ := by
  unfold buildParser
  rw [registerArguments_spec _ _ (by simpa using supportedNames_nodup argsConf hu) ha]
  simp

theorem badDefault_type (d : argumentDef) (h : badDefault d = true) :
    d.DataType = "int" ∨ d.DataType = "bool" := by
  unfold badDefault at h
  simp only [Bool.or_eq_true, Bool.and_eq_true, decide_eq_true_eq] at h
  rcases h with h | h
  · exact Or.inl h.1
  · exact Or.inr h.1

theorem run_error_of_buildParser (argsConf : argumentsConf) (e : Failure)
    (h : buildParser argsConf = .error e) (osArgs : List String) :
    run osArgs argsConf = .error e ∨ run osArgs argsConf = .error .panic := by
  cases osArgs with
  | nil => right; exact run_nil _
  | cons t0 rest => left; rw [run_cons, h]

/-- C7 (counterexample). Both schemas have unique names. In the first the only definition is
a string whose name contains `=`: no int or bool default is bad, and yet building the parser
stops the process (`FlagSet.Var` panics). In the second that definition precedes an int
definition with the default `notanumber`: the process stops in the same panic, before the
bad default is looked at, not in the fatal error of the bad default. -/
theorem C7_bad_default_iff_counterexample :
    (uniqueNames schemaEqualsName ∧
      (∀ d ∈ schemaEqualsName.Arguments, badDefault d = false) ∧
      buildParser schemaEqualsName = .error .panic ∧
      run ["prog"] schemaEqualsName = .error .panic) ∧
    (uniqueNames schemaEqualsNameBadInt ∧
      (∃ d ∈ schemaEqualsNameBadInt.Arguments, badDefault d = true) ∧
      buildParser schemaEqualsNameBadInt = .error .panic ∧
      buildParser schemaEqualsNameBadInt ≠ .error (.fatal "n")) := by
  decide

/-- C7 (amended). For every schema with unique names in which no supported-type definition
has a name that begins with `-` or contains `=`, building the parser stops the process if and
only if some int definition has a default whose text is not a base-10 integer or some bool
definition has a default whose text is not a boolean literal; the stop is then the fatal
error of `init` on such a definition, string-typed and unsupported-type definitions never
cause it, and every run ends with a non-zero status without collecting any value. -/
theorem C7_fatal_on_bad_default (argsConf : argumentsConf) (hu : uniqueNames argsConf)
    (ha : ∀ d ∈ argsConf.Arguments, supported d = true → acceptedName d.Long) :
    ((∃ e, buildParser argsConf = .error e) ↔
      ∃ d ∈ argsConf.Arguments, badDefault d = true) ∧
    (∀ e, buildParser argsConf = .error e →
      ∃ d ∈ argsConf.Arguments, badDefault d = true ∧
        (d.DataType = "int" ∨ d.DataType = "bool") ∧ e = .fatal d.Long) ∧
    (∀ e, buildParser argsConf = .error e →
      ∀ osArgs, ∃ e1, run osArgs argsConf = .error e1 ∧ e1.status ≠ 0) ∧
    run ["prog"] schemaBadInt = .error (.fatal "n") := by
  have hspec := buildParser_spec argsConf hu ha
  have key : ∀ e, buildParser argsConf = .error e →
      ∃ d ∈ argsConf.Arguments, badDefault d = true ∧
        (d.DataType = "int" ∨ d.DataType = "bool") ∧ e = .fatal d.Long := by
    intro e he
    rw [hspec] at he
    cases hfind : argsConf.Arguments.find? badDefault with
    | none => simp [hfind] at he
    | some d =>
      simp only [hfind, Except.error.injEq] at he
      have hb : badDefault d = true := List.find?_some hfind
      exact ⟨d, List.mem_of_find?_eq_some hfind, hb, badDefault_type d hb, he.symm⟩
  refine ⟨⟨?_, ?_⟩, key, ?_, by decide⟩
  · rintro ⟨e, he⟩
    obtain ⟨d, hd, hb, _, _⟩ := key e he
    exact ⟨d, hd, hb⟩
  · rintro ⟨d, hd, hb⟩
    cases hfind : argsConf.Arguments.find? badDefault with
    | none =>
      have := List.find?_eq_none.mp hfind d hd
      simp [hb] at this
    | some d1 =>
      exact ⟨.fatal d1.Long, by rw [hspec, hfind]⟩
  · intro e he osArgs
    obtain ⟨d, _, _, _, hed⟩ := key e he
    rcases run_error_of_buildParser argsConf e he osArgs with h | h
    · exact ⟨e, h, by rw [hed]; simp [Failure.status]⟩
    · exact ⟨.panic, h, by decide⟩

theorem C7_fatal_on_bad_default_witness :
    (∃ e, buildParser schemaBadInt = .error e) ↔
      ∃ d ∈ schemaBadInt.Arguments, badDefault d = true :=
  (C7_fatal_on_bad_default schemaBadInt (by decide) (by decide)).1

/-! ## Decimal text of an integer, read back -/

theorem digitChar_toNat (d : Nat) (h : d < 10) : (digitChar d).toNat = 48 + d := by
  interval_cases d <;> rfl

theorem parseUintStep_digit (b0 : Bool) (n d : Nat) (hd : d < 10) (hn : n * 10 + d < 2 ^ 64) :
    parseUintStep 10 b0 (maxUint64 / 10 + 1) (2 ^ 64 - 1) ⟨n, false⟩ (digitChar d)
      = .ok ⟨n * 10 + d, false⟩ := by
  have hc := digitChar_toNat d hd
  have h1 : ¬ (48 + d = 95) := by omega
  have h2 : 48 ≤ 48 + d ∧ 48 + d ≤ 57 := by omega
  have h3 : ¬ (n ≥ maxUint64 / 10 + 1) := by
    simp only [maxUint64]; omega
  have h4 : (n * 10) % 2 ^ 64 = n * 10 := Nat.mod_eq_of_lt (by omega)
  have h5 : (n * 10 + d) % 2 ^ 64 = n * 10 + d := Nat.mod_eq_of_lt hn
  have h6 : ¬ (n * 10 + d < n * 10 ∨ n * 10 + d > 2 ^ 64 - 1) := by omega
  have h7 : ¬ (d ≥ 10) := by omega
  simp only [parseUintStep, hc, h1, false_and, if_false, h2, and_self, if_true,
    Nat.add_sub_cancel_left, h7, h3, h4, h5, h6]

theorem parseUintLoop_formatBits (b0 : Bool) (fuel n : Nat) (acc : List Char)
    (hf : n < fuel) (hn : n < 2 ^ 64) :
    parseUintLoop 10 b0 (maxUint64 / 10 + 1) (2 ^ 64 - 1) ⟨0, false⟩ (formatBits fuel n acc)
      = parseUintLoop 10 b0 (maxUint64 / 10 + 1) (2 ^ 64 - 1) ⟨n, false⟩ acc := by
  induction fuel generalizing n acc with
  | zero => omega
  | succ fuel ih =>
    unfold formatBits
    split
    · rename_i h0
      have hlt : n < 10 := by omega
      have hmod : n % 10 = n := Nat.mod_eq_of_lt hlt
      rw [hmod]
      simp only [parseUintLoop]
      rw [parseUintStep_digit b0 0 n hlt (by omega)]
      simp
    · rename_i h0
      rw [ih (n / 10) _ (by omega) (by omega)]
      simp only [parseUintLoop]
      rw [parseUintStep_digit b0 (n / 10) (n % 10) (Nat.mod_lt _ (by omega)) (by omega)]
      have : n / 10 * 10 + n % 10 = n := by omega
      simp only [this]

theorem formatBits_head (fuel n : Nat) (acc : List Char) (hf : n < fuel) :
    ∃ d t, formatBits fuel n acc = digitChar d :: t ∧ d < 10 ∧ (1 ≤ n → 1 ≤ d) := by
  induction fuel generalizing n acc with
  | zero => omega
  | succ fuel ih =>
    unfold formatBits
    split
    · exact ⟨n % 10, acc, rfl, Nat.mod_lt _ (by omega), fun h => by omega⟩
    · rename_i h0
      obtain ⟨d, t, h1, h2, h3⟩ := ih (n / 10) (digitChar (n % 10) :: acc) (by omega)
      exact ⟨d, t, h1, h2, fun _ => h3 (by omega)⟩

theorem digitChar_ne (d : Nat) (hd : d < 10) (c : Char) (hc : c.toNat < 48 ∨ 57 < c.toNat) :
    digitChar d ≠ c := by
  intro h
  have := digitChar_toNat d hd
  rw [h] at this
  omega

theorem ParseUint_FormatUint (n : Nat) (hn : n < 2 ^ 64) :
    ParseUint (FormatUint n) 0 64 = .ok n := by
  by_cases h0 : n = 0
  · subst h0; decide
  · obtain ⟨d, t, h1, h2, h3⟩ := formatBits_head (n + 1) n [] (by omega)
    have hd1 : 1 ≤ d := h3 (by omega)
    have hne : FormatUint n ≠ [] := by simp [FormatUint, h1]
    have hhead : (FormatUint n).head? ≠ some '0' := by
      simp only [FormatUint, h1, List.head?_cons, ne_eq, Option.some.injEq]
      intro h
      have := digitChar_toNat d h2
      rw [h] at this
      have h48 : ('0' : Char).toNat = 48 := rfl
      omega
    have hloop := parseUintLoop_formatBits true (n + 1) n [] (by omega) hn
    simp only [ParseUint, hne, if_false, if_true, hhead, decide_True]
    have e1 : (if (64 : Nat) = 0 then intSize else 64) = 64 := by simp
    simp only [e1]
    rw [show FormatUint n = formatBits (n + 1) n [] from rfl, hloop]
    simp [parseUintLoop]

theorem FormatUint_head (n : Nat) :
    ∃ c t, FormatUint n = c :: t ∧ c ≠ '+' ∧ c ≠ '-' := by
  obtain ⟨d, t, h1, h2, _⟩ := formatBits_head (n + 1) n [] (by omega)
  refine ⟨digitChar d, t, h1, digitChar_ne d h2 _ (Or.inl (by decide)),
    digitChar_ne d h2 _ (Or.inl (by decide))⟩

/-- Reading back the decimal text of a machine integer gives the integer. -/
theorem ParseInt_FormatInt (v : Int) (hlo : -(2 ^ 63) ≤ v) (hhi : v < 2 ^ 63) :
    ParseInt (FormatInt v) 0 64 = .ok v := by
  by_cases hneg : v < 0
  · have hs : (FormatInt v).data = '-' :: FormatUint v.natAbs := by
      simp [FormatInt, hneg]
    have hp := ParseUint_FormatUint v.natAbs (by omega)
    simp only [ParseInt, hs, or_true, if_true, hp, decide_True]
    have hcut : ¬ (v.natAbs > 2 ^ ((if (64 : Nat) = 0 then intSize else 64) - 1)) := by
      simp only [show ((64 : Nat) = 0) = False from by simp, if_false]
      omega
    simp only [Bool.true_eq_false, false_and, if_false, true_and, hcut, if_true]
    congr 1
    unfold negInt64 toInt64
    split
    · split <;> omega
    · split <;> omega
  · obtain ⟨c, t, h1, h2, h3⟩ := FormatUint_head v.natAbs
    have hs : (FormatInt v).data = c :: t := by
      simp [FormatInt, hneg, h1]
    have hp := ParseUint_FormatUint v.natAbs (by omega)
    rw [h1] at hp
    simp only [ParseInt, hs, h2, h3, or_self, if_false, hp, decide_False]
    have hcut : ¬ (v.natAbs ≥ 2 ^ ((if (64 : Nat) = 0 then intSize else 64) - 1)) := by
      simp only [show ((64 : Nat) = 0) = False from by simp, if_false]
      omega
    simp only [true_and, hcut, if_false, Bool.false_eq_true, false_and]
    congr 1
    unfold toInt64
    split <;> omega

/-! ## Flags passed as `-name value` -/

theorem span_all {α : Type} (p : α → Bool) (l : List α) (h : ∀ x ∈ l, p x = true) :
    l.span p = (l, []) := by
  rw [List.span_eq_take_drop]
  have h1 : l.takeWhile p = l := List.takeWhile_eq_self_iff.mpr h
  have h2 : l.dropWhile p = [] := List.dropWhile_eq_nil_iff.mpr h
  rw [h1, h2]

theorem dashed_data (n : String) : (dashed n).data = '-' :: n.data := by
  simp [dashed, String.data_append]

theorem dashed_hasPrefix (n : String) : HasPrefix (dashed n) "-" = true := by
  simp [HasPrefix, dashed_data]

theorem wellFormedName_data (n : String) (h : wellFormedName n) :
    ∃ c t, n.data = c :: t ∧ c ≠ '-' ∧ c ≠ '=' ∧ ∀ x ∈ t, x ≠ '=' := by
  obtain ⟨hne, hp, hc⟩ := h
  cases hd : n.data with
  | nil =>
    exfalso; apply hne
    cases n; simp_all
  | cons c t =>
    refine ⟨c, t, rfl, ?_, ?_, ?_⟩
    · intro h; subst h
      simp [HasPrefix, hd] at hp
    · intro h; subst h
      simp [ContainsByte, hd] at hc
    · intro x hx h; subst h
      simp [ContainsByte, hd] at hc
      exact hc.2 hx

theorem flagSyntax_dashed (n : String) (h : wellFormedName n) :
    flagSyntax (dashed n) = .flag n none := by
  obtain ⟨c, t, hd, h1, h2, h3⟩ := wellFormedName_data n h
  have hspan : t.span (fun x => decide (x ≠ '=')) = (t, []) :=
    span_all _ _ (fun x hx => by simpa using h3 x hx)
  have hn : String.mk (c :: t) = n := by cases n; simp_all
  have hsplit : splitNameValue (c :: t) = (c :: t, none) := by
    simp only [splitNameValue, hspan]
  have hlen : ¬ (t.length + 1 + 1 < 2) := by omega
  simp only [flagSyntax, dashed_data, hd, List.length_cons, hlen, List.head?_cons, ne_eq,
    not_true_eq_false, or_self, if_false, List.get?_cons_succ, List.get?_cons_zero,
    Option.some.injEq, h1, false_and, List.drop_succ_cons, List.drop_zero,
    Nat.add_one_ne_zero, h2, hsplit, hn, Option.map_none']
  simp

theorem flagSyntax_flag_hasPrefix (s name : String) (given : Option String)
    (h : flagSyntax s = .flag name given) : HasPrefix s "-" = true := by
  unfold flagSyntax at h
  split at h
  · cases h
  · rename_i h1
    simp only [not_or, not_not] at h1
    cases hd : s.data with
    | nil => simp [hd] at h1
    | cons c t =>
      simp [hd] at h1
      simp [HasPrefix, hd, h1.2]

theorem flagSyntax_nonFlag (s : String) (h : HasPrefix s "-" = false) :
    flagSyntax s = .nonFlag := by
  unfold flagSyntax
  cases hd : s.data with
  | nil => simp
  | cons c t =>
    have : c ≠ '-' := by
      intro hc; subst hc; simp [HasPrefix, hd] at h
    simp [this]

theorem lookup_store (f : FlagSet) (n m : String) (v : Value) :
    (f.store n v).lookup m =
      (f.lookup m).map (fun fl => if fl.Name = n then { fl with Value := v } else fl) := by
  have hcomp : ((fun fl : Flag => decide (fl.Name = m)) ∘
      (fun fl : Flag => if fl.Name = n then { fl with Value := v } else fl))
      = (fun fl : Flag => decide (fl.Name = m)) := by
    funext fl
    simp only [Function.comp]
    split <;> rfl
  simp only [FlagSet.lookup, FlagSet.store, List.find?_map, hcomp]

theorem lookup_store_ne (f : FlagSet) (n m : String) (v : Value) (hne : m ≠ n) :
    (f.store n v).lookup m = f.lookup m := by
  rw [lookup_store]
  cases h : f.lookup m with
  | none => rfl
  | some fl =>
    have := (lookup_some_mem f m fl h).2
    simp [this, hne]

theorem lookup_store_eq (f : FlagSet) (n : String) (v : Value) :
    (f.store n v).lookup n = (f.lookup n).map (fun fl => { fl with Value := v }) := by
  rw [lookup_store]
  cases h : f.lookup n with
  | none => rfl
  | some fl =>
    have := (lookup_some_mem f n fl h).2
    simp [this]

theorem parseOne_nil (f : FlagSet) (h : f.args = []) : f.parseOne = .done f := by
  simp [FlagSet.parseOne, h]

theorem parseOne_nonFlag (f : FlagSet) (s : String) (rest : List String)
    (h : f.args = s :: rest) (hs : HasPrefix s "-" = false) : f.parseOne = .done f := by
  simp [FlagSet.parseOne, h, flagSyntax_nonFlag s hs]

theorem parseOne_pair (f : FlagSet) (n val : String) (rest : List String) (fl : Flag)
    (h : f.args = dashed n :: val :: rest) (hw : wellFormedName n)
    (hl : f.lookup n = some fl) (hnb : fl.Value.IsBoolFlag = false) :
    f.parseOne =
      match fl.Value.Set val with
      | .error _ => .failed .failf
      | .ok v => .seen (FlagSet.store { f with args := rest } n v) := by
  simp only [FlagSet.parseOne, h, flagSyntax_dashed n hw, hl, hnb]
  simp
theorem parseLoop_seen (fuel : Nat) (f g : FlagSet) (h : f.parseOne = .seen g) :
    FlagSet.parseLoop (fuel + 1) f = FlagSet.parseLoop fuel g := by
  simp only [FlagSet.parseLoop, h]

theorem parseLoop_done (fuel : Nat) (f g : FlagSet) (h : f.parseOne = .done g) :
    FlagSet.parseLoop (fuel + 1) f = some (.ok g) := by
  simp only [FlagSet.parseLoop, h]

/-- The parse loop over `-flag value` pairs of defined flags that are not boolean, each value
being accepted by its flag: the loop consumes the pairs, every passed flag holds the value
read from its token and every other flag is left as it was. -/
theorem parseLoop_pairs_ok (ps : List (String × String)) (fuel : Nat) (f : FlagSet)
    (rest : List String)
    (hargs : f.args = flagValueTokens ps ++ rest)
    (hdist : (ps.map Prod.fst).Nodup)
    (hps : ∀ p ∈ ps, wellFormedName p.1 ∧ ∃ fl v, f.lookup p.1 = some fl ∧
      fl.Value.IsBoolFlag = false ∧ fl.Value.Set p.2 = .ok v) :
    ∃ f1, FlagSet.parseLoop (fuel + ps.length) f = FlagSet.parseLoop fuel f1 ∧
      f1.args = rest ∧
      (∀ p ∈ ps, ∀ fl v, f.lookup p.1 = some fl → fl.Value.Set p.2 = .ok v →
        f1.lookup p.1 = some { fl with Value := v }) ∧
      (∀ m, m ∉ ps.map Prod.fst → f1.lookup m = f.lookup m) := by
  induction ps generalizing f with
  | nil =>
    exact ⟨f, rfl, by simpa [flagValueTokens] using hargs, by simp, fun m _ => rfl⟩
  | cons p ps ih =>
    obtain ⟨hw, fl, v, hl, hnb, hset⟩ := hps p (List.mem_cons_self _ _)
    have hnd := List.nodup_cons.mp (show (p.1 :: ps.map Prod.fst).Nodup from hdist)
    have hargs1 : f.args = dashed p.1 :: p.2 :: (flagValueTokens ps ++ rest) := by
      simpa [flagValueTokens] using hargs
    have hone := parseOne_pair f p.1 p.2 _ fl hargs1 hw hl hnb
    rw [hset] at hone
    have hg_ne : ∀ m, m ≠ p.1 →
        (FlagSet.store { f with args := flagValueTokens ps ++ rest } p.1 v).lookup m
          = f.lookup m := fun m hm => lookup_store_ne _ _ _ _ hm
    have hg_eq : (FlagSet.store { f with args := flagValueTokens ps ++ rest } p.1 v).lookup p.1
        = some { fl with Value := v } := by
      rw [lookup_store_eq]
      show (f.lookup p.1).map _ = _
      rw [hl]; rfl
    have hne_of_mem : ∀ q ∈ ps, q.1 ≠ p.1 := by
      intro q hq heq
      exact hnd.1 (heq ▸ List.mem_map_of_mem Prod.fst hq)
    obtain ⟨f1, h1, h2, h3, h4⟩ :=
      ih (FlagSet.store { f with args := flagValueTokens ps ++ rest } p.1 v) rfl hnd.2
        (by
          intro q hq
          obtain ⟨hwq, flq, vq, hlq, hnbq, hsetq⟩ := hps q (List.mem_cons_of_mem _ hq)
          exact ⟨hwq, flq, vq, by rw [hg_ne q.1 (hne_of_mem q hq)]; exact hlq, hnbq, hsetq⟩)
    refine ⟨f1, ?_, h2, ?_, ?_⟩
    · rw [List.length_cons, ← Nat.add_assoc, parseLoop_seen _ _ _ hone]
      exact h1
    · intro q hq fl1 v1 hl1 hs1
      rcases List.mem_cons.mp hq with rfl | hq
      · rw [h4 q.1 hnd.1, hg_eq]
        rw [hl] at hl1
        injection hl1 with hl1
        subst hl1
        rw [hset] at hs1
        injection hs1 with hs1
        subst hs1
        rfl
      · apply h3 q hq fl1 v1 _ hs1
        rw [hg_ne q.1 (hne_of_mem q hq)]; exact hl1
    · intro m hm
      have hm1 : m ≠ p.1 ∧ m ∉ ps.map Prod.fst := by
        simpa [not_or] using hm
      rw [h4 m hm1.2, hg_ne m hm1.1]

theorem lookup_of_mem_nodup (fs : FlagSet) (fl : Flag) (hmem : fl ∈ fs.formal)
    (hnd : (fs.formal.map (fun fl => fl.Name)).Nodup) : fs.lookup fl.Name = some fl := by
  cases h : fs.lookup fl.Name with
  | none =>
    exfalso
    exact (lookup_eq_none_iff fs fl.Name).mp h (List.mem_map_of_mem _ hmem)
  | some fl1 =>
    obtain ⟨h1, h2⟩ := lookup_some_mem fs _ fl1 h
    rw [List.inj_on_of_nodup_map hnd h1 hmem h2]

/-- The parser built from a schema with unique names, accepted names and parsing defaults. -/
theorem buildParser_valid (argsConf : argumentsConf) (hu : uniqueNames argsConf)
    (hc : coercibleDefaults argsConf)
    (ha : ∀ d ∈ argsConf.Arguments, supported d = true → acceptedName d.Long) :
    buildParser argsConf = .ok ⟨argsConf.Arguments.filterMap flagOf, []⟩ ∧
    ((argsConf.Arguments.filterMap flagOf).map (fun fl => fl.Name)).Nodup ∧
    (∀ d ∈ argsConf.Arguments, supported d = true → ∃ v, coerceDefault d = some v ∧
      FlagSet.lookup ⟨argsConf.Arguments.filterMap flagOf, []⟩ d.Long
        = some ⟨d.Long, d.Help, v, v.GoString⟩) := by
  have hspec := buildParser_spec argsConf hu ha
  have hnone : argsConf.Arguments.find? badDefault = none :=
    List.find?_eq_none.mpr (fun d hd => by simp [hc d hd])
  rw [hnone] at hspec
  have hnd : ((argsConf.Arguments.filterMap flagOf).map (fun fl => fl.Name)).Nodup := by
    rw [filterMap_flagOf_names _ hc]
    exact supportedNames_nodup argsConf hu
  refine ⟨hspec, hnd, ?_⟩
  intro d hd hs
  obtain ⟨v, hv⟩ := coerceDefault_isSome d (hc d hd) hs
  exact ⟨v, hv, lookup_of_mem_nodup ⟨_, []⟩ ⟨d.Long, d.Help, v, v.GoString⟩
    (mem_filterMap_flagOf _ d v hd hv) hnd⟩

theorem scanSliceFrom_lead (k : Nat) (lead : List String) (s : String) (more : List String)
    (hlead : ∀ t ∈ lead, HasPrefix t "-" = false) (hs : HasPrefix s "-" = true) :
    scanSliceFrom k (lead ++ s :: more) = k + lead.length := by
  induction lead generalizing k with
  | nil => simp [scanSliceFrom, hs]
  | cons t lead ih =>
    have ht := hlead t (List.mem_cons_self _ _)
    show scanSliceFrom k (t :: (lead ++ s :: more)) = k + (t :: lead).length
    have hih := ih (k + 1) (fun x hx => hlead x (List.mem_cons_of_mem _ hx))
    simp only [scanSliceFrom, ht, List.length_cons, hih, Bool.false_eq_true, if_false]
    omega

/-- The arguments that `flag.Parse` receives when the first token that begins with `-` comes
after the program name and the leading tokens. -/
theorem drop_sliceFrom_lead (prog : String) (lead : List String) (s : String)
    (more : List String) (hprog : HasPrefix prog "-" = false)
    (hlead : ∀ t ∈ lead, HasPrefix t "-" = false) (hs : HasPrefix s "-" = true) :
    (prog :: (lead ++ s :: more)).drop (sliceFrom (prog :: (lead ++ s :: more))) = s :: more := by
  have h : sliceFrom (prog :: (lead ++ s :: more)) = lead.length + 1 := by
    simp only [sliceFrom, scanSliceFrom, hprog]
    rw [scanSliceFrom_lead _ lead s more hlead hs]
    simp
    omega
  rw [h]
  simp

/-- With no token that begins with `-`, `flag.Parse` sees the program name first and stops
at once: no flag is set. -/
theorem Parse_no_flag (f : FlagSet) (prog : String) (lead : List String)
    (hprog : HasPrefix prog "-" = false) (hlead : ∀ t ∈ lead, HasPrefix t "-" = false) :
    f.Parse ((prog :: lead).drop (sliceFrom (prog :: lead)))
      = .ok { f with args := prog :: lead } := by
  have h : sliceFrom (prog :: lead) = 0 := by
    apply scanSliceFrom_none
    intro x hx
    rcases List.mem_cons.mp hx with rfl | hx
    · exact hprog
    · exact hlead x hx
  rw [h, List.drop_zero]
  unfold FlagSet.Parse
  rw [parseLoop_done _ _ _ (parseOne_nonFlag _ prog lead rfl hprog)]

theorem flagValueTokens_length (ps : List (String × String)) :
    (flagValueTokens ps).length = ps.length + ps.length := by
  induction ps with
  | nil => rfl
  | cons p ps ih => simp only [flagValueTokens, List.length_cons, ih]; omega

theorem Parse_pairs_ok (ps : List (String × String)) (f : FlagSet)
    (hdist : (ps.map Prod.fst).Nodup)
    (hps : ∀ p ∈ ps, wellFormedName p.1 ∧ ∃ fl v, f.lookup p.1 = some fl ∧
      fl.Value.IsBoolFlag = false ∧ fl.Value.Set p.2 = .ok v) :
    ∃ f1, f.Parse (flagValueTokens ps) = .ok f1 ∧
      (∀ p ∈ ps, ∀ fl v, f.lookup p.1 = some fl → fl.Value.Set p.2 = .ok v →
        f1.lookup p.1 = some { fl with Value := v }) ∧
      (∀ m, m ∉ ps.map Prod.fst → f1.lookup m = f.lookup m) := by
  obtain ⟨f1, h1, h2, h3, h4⟩ :=
    parseLoop_pairs_ok ps (ps.length + 1) { f with args := flagValueTokens ps } []
      (by simp) hdist hps
  refine ⟨f1, ?_, h3, h4⟩
  unfold FlagSet.Parse
  have hfuel : (flagValueTokens ps).length + 1 = ps.length + 1 + ps.length := by
    rw [flagValueTokens_length]; omega
  rw [hfuel, h1, parseLoop_done _ _ _ (parseOne_nil f1 h2)]

theorem literalText_set (d : argumentDef) (v0 : Value) (val txt : String)
    (hc : coerceDefault d = some v0) (ht : literalText d.DataType val = some txt) :
    ∃ v, v0.Set val = .ok v ∧ v.GoString = txt := by
  rcases dataType_cases d with h | ⟨h, h1⟩ | ⟨h, h1, h2⟩ | ⟨h1, h2, h3⟩
  · simp only [coerceDefault, h, if_true, Option.some.injEq] at hc
    simp only [literalText, h, if_true, Option.some.injEq] at ht
    subst hc ht
    exact ⟨_, rfl, rfl⟩
  · cases ha : Atoi (Sprintf d.DefaultValue) with
    | error e => simp [coerceDefault, h, ha] at hc
    | ok i0 =>
      simp only [coerceDefault, h, ha] at hc
      simp at hc
      subst hc
      cases hp : ParseInt val 0 intSize with
      | error e => simp [literalText, h, hp] at ht
      | ok i =>
        simp only [literalText, h, hp] at ht
        simp at ht
        subst ht
        exact ⟨.intValue i, by simp [Value.Set, hp], rfl⟩
  · cases ha : ParseBool (Sprintf d.DefaultValue) with
    | error e => simp [coerceDefault, h, ha] at hc
    | ok b0 =>
      simp only [coerceDefault, h, ha] at hc
      simp at hc
      subst hc
      cases hp : ParseBool val with
      | error e => simp [literalText, h, hp] at ht
      | ok b =>
        simp only [literalText, h, hp] at ht
        simp at ht
        subst ht
        exact ⟨.boolValue b, by simp [Value.Set, hp], rfl⟩
  · simp [literalText, h1, h2, h3] at ht

theorem coerceDefault_not_bool (d : argumentDef) (v0 : Value)
    (hc : coerceDefault d = some v0) (ht : d.DataType = "string" ∨ d.DataType = "int") :
    v0.IsBoolFlag = false := by
  rcases ht with h | h
  · simp only [coerceDefault, h, if_true, Option.some.injEq] at hc
    subst hc; rfl
  · cases ha : Atoi (Sprintf d.DefaultValue) with
    | error e => simp [coerceDefault, h, ha] at hc
    | ok i0 =>
      simp only [coerceDefault, h, ha] at hc
      simp at hc
      subst hc; rfl
theorem mem_vals_of_lookup (f : FlagSet) (n : String) (fl : Flag) (h : f.lookup n = some fl) :
    (⟨n, .str fl.Value.GoString⟩ : ArgumentValue) ∈ (sortFlags f.formal).map toArgumentValue := by
  obtain ⟨hmem, hname⟩ := lookup_some_mem f n fl h
  apply List.mem_map.mpr
  refine ⟨fl, ?_, by simp [toArgumentValue, hname]⟩
  unfold sortFlags
  exact (List.mem_insertionSort _).mpr hmem

theorem literalText_supported (d : argumentDef) (val txt : String)
    (h : literalText d.DataType val = some txt) : supported d = true := by
  rcases dataType_cases d with h0 | ⟨h0, _⟩ | ⟨h0, _, _⟩ | ⟨h1, h2, h3⟩
  · simp [supported, h0]
  · simp [supported, h0]
  · simp [supported, h0]
  · simp [literalText, h1, h2, h3] at h

theorem supported_of_type (d : argumentDef) (h : d.DataType = "string" ∨ d.DataType = "int") :
    supported d = true := by
  rcases h with h | h <;> simp [supported, h]

/-- A run of a valid schema on `prog`, leading tokens that do not begin with `-`, then
`-flag value` pairs of distinct string or int arguments with valid literals: it succeeds,
every passed argument has the string form of its literal and every other supported argument
its default. -/
theorem run_pairs_ok (argsConf : argumentsConf) (prog : String) (lead : List String)
    (ps : List (String × String))
    (hu : uniqueNames argsConf) (hc : coercibleDefaults argsConf)
    (hw : wellFormedNames argsConf)
    (hprog : HasPrefix prog "-" = false) (hlead : ∀ t ∈ lead, HasPrefix t "-" = false)
    (hdist : (ps.map Prod.fst).Nodup)
    (hps : ∀ p ∈ ps, ∃ d ∈ argsConf.Arguments, d.Long = p.1 ∧
      (d.DataType = "string" ∨ d.DataType = "int") ∧
      ∃ txt, literalText d.DataType p.2 = some txt) :
    ∃ vals, run (prog :: (lead ++ flagValueTokens ps)) argsConf = .ok vals ∧
      (∀ p ∈ ps, ∀ d ∈ argsConf.Arguments, d.Long = p.1 → ∀ txt,
        literalText d.DataType p.2 = some txt → (⟨p.1, .str txt⟩ : ArgumentValue) ∈ vals) ∧
      (∀ d ∈ argsConf.Arguments, supported d = true → d.Long ∉ ps.map Prod.fst →
        ∃ txt, defaultText d = some txt ∧ (⟨d.Long, .str txt⟩ : ArgumentValue) ∈ vals) := by
  obtain ⟨hb, hnd, hlook⟩ := buildParser_valid argsConf hu hc (fun d hd hs => (hw d hd hs).2)
  have hps1 : ∀ p ∈ ps, wellFormedName p.1 ∧ ∃ fl v,
      FlagSet.lookup ⟨argsConf.Arguments.filterMap flagOf, []⟩ p.1 = some fl ∧
      fl.Value.IsBoolFlag = false ∧ fl.Value.Set p.2 = .ok v := by
    intro p hp
    obtain ⟨d, hd, hname, htype, txt, htxt⟩ := hps p hp
    have hs := supported_of_type d htype
    obtain ⟨v0, hv0, hl⟩ := hlook d hd hs
    obtain ⟨v, hset, _⟩ := literalText_set d v0 p.2 txt hv0 htxt
    exact ⟨hname ▸ hw d hd hs, _, v, hname ▸ hl, coerceDefault_not_bool d v0 hv0 htype, hset⟩
  have hparse : ∃ f1, FlagSet.Parse ⟨argsConf.Arguments.filterMap flagOf, []⟩
      ((prog :: (lead ++ flagValueTokens ps)).drop
        (sliceFrom (prog :: (lead ++ flagValueTokens ps)))) = .ok f1 ∧
      (∀ p ∈ ps, ∀ fl v,
        FlagSet.lookup ⟨argsConf.Arguments.filterMap flagOf, []⟩ p.1 = some fl →
        fl.Value.Set p.2 = .ok v → f1.lookup p.1 = some { fl with Value := v }) ∧
      (∀ m, m ∉ ps.map Prod.fst →
        f1.lookup m = FlagSet.lookup ⟨argsConf.Arguments.filterMap flagOf, []⟩ m) := by
    cases ps with
    | nil =>
      refine ⟨⟨argsConf.Arguments.filterMap flagOf, prog :: lead⟩, ?_, by simp,
        fun m _ => rfl⟩
      simp only [flagValueTokens, List.append_nil]
      exact Parse_no_flag _ prog lead hprog hlead
    | cons p ps1 =>
      obtain ⟨f1, h1, h2, h3⟩ := Parse_pairs_ok (p :: ps1) _ hdist hps1
      refine ⟨f1, ?_, h2, h3⟩
      have hd := drop_sliceFrom_lead prog lead (dashed p.1) (p.2 :: flagValueTokens ps1)
        hprog hlead (dashed_hasPrefix _)
      rw [show flagValueTokens (p :: ps1) = dashed p.1 :: p.2 :: flagValueTokens ps1 from rfl]
        at h1 ⊢
      rw [hd, h1]
  obtain ⟨f1, hp1, hpass, hrest⟩ := hparse
  refine ⟨(sortFlags f1.formal).map toArgumentValue, ?_, ?_, ?_⟩
  · rw [run_cons, hb]
    simp only [hp1]
  · intro p hp d hd hname txt htxt
    have hs := literalText_supported d p.2 txt htxt
    obtain ⟨v0, hv0, hl⟩ := hlook d hd hs
    obtain ⟨v, hset, hgs⟩ := literalText_set d v0 p.2 txt hv0 htxt
    have := hpass p hp _ v (hname ▸ hl) hset
    have hm := mem_vals_of_lookup f1 p.1 _ this
    simpa [hgs] using hm
  · intro d hd hs hnot
    obtain ⟨v0, hv0, hl⟩ := hlook d hd hs
    have := (hrest d.Long hnot).trans hl
    refine ⟨v0.GoString, by rw [defaultText_eq, hv0]; rfl, ?_⟩
    exact mem_vals_of_lookup f1 d.Long _ this

theorem run_ok_nodup (osArgs : List String) (argsConf : argumentsConf)
    (vals : List ArgumentValue) (h : run osArgs argsConf = .ok vals) :
    (vals.map (fun a => a.Name)).Nodup := by
  obtain ⟨fs0, _, hb, _, _, _⟩ := run_ok_inv _ _ _ h
  rw [run_ok_names _ _ _ h]
  exact (List.perm_insertionSort nameLE _).symm.nodup (buildParser_ok_inv _ _ hb).2.2.1

/-! ## Override and the flag/value shape -/

/-- C6 (counterexample). The schema contains the int definition `foo` with the coercible
default 5, and 9 is a machine integer; a second definition has the default `notanumber`, and
the invocation `prog -foo 9` ends in the fatal error of `init`: no value is collected for
`foo`. -/
theorem C6_override_counterexample :
    (⟨"foo", "int", "a number", .int 5⟩ : argumentDef) ∈ schemaFooBadBar.Arguments ∧
    badDefault ⟨"foo", "int", "a number", .int 5⟩ = false ∧
    uniqueNames schemaFooBadBar ∧
    run ["prog", dashed "foo", Itoa 9] schemaFooBadBar = .error (.fatal "bar") := by
  decide

/-- C6 (amended). For every schema with unique names, coercible defaults and well-formed flag
names (not empty, not beginning with `-`, without `=`) that contains an int definition named
`n`, and every machine-range integer `v`, the invocation `prog -n <decimal text of v>`,
optionally preceded by leading tokens that do not begin with `-` (nor does the program name),
succeeds and yields the decimal text of `v` as the collected value of `n`; the schema
`{long: foo, dataType: int, defaultValue: 5}` with `-foo 9` gives `"9"` for `foo`. -/
theorem C6_override (argsConf : argumentsConf) (d : argumentDef) (v : Int) (prog : String)
    (lead : List String)
    (hu : uniqueNames argsConf) (hc : coercibleDefaults argsConf)
    (hw : wellFormedNames argsConf)
    (hd : d ∈ argsConf.Arguments) (hint : d.DataType = "int")
    (hlo : -(2 ^ 63) ≤ v) (hhi : v < 2 ^ 63)
    (hprog : HasPrefix prog "-" = false) (hlead : ∀ t ∈ lead, HasPrefix t "-" = false) :
    (∃ vals, run (prog :: (lead ++ [dashed d.Long, Itoa v])) argsConf = .ok vals ∧
      (⟨d.Long, .str (Itoa v)⟩ : ArgumentValue) ∈ vals ∧
      ∀ a ∈ vals, a.Name = d.Long → a.Value = .str (Itoa v)) ∧
    run ["prog", "-foo", "9"] schemaFoo = .ok [⟨"foo", .str "9"⟩] := by
  refine ⟨?_, by decide⟩
  have htxt : literalText d.DataType (Itoa v) = some (Itoa v) := by
    have hp : ParseInt (Itoa v) 0 intSize = .ok v := ParseInt_FormatInt v hlo hhi
    simp [literalText, hint, hp]
  obtain ⟨vals, hrun, hpass, _⟩ := run_pairs_ok argsConf prog lead [(d.Long, Itoa v)]
    hu hc hw hprog hlead (by simp)
    (by
      intro p hp
      simp only [List.mem_singleton] at hp
      subst hp
      exact ⟨d, hd, rfl, Or.inr hint, _, htxt⟩)
  have hin := hpass (d.Long, Itoa v) (by simp) d hd rfl _ htxt
  refine ⟨vals, hrun, hin, ?_⟩
  intro a ha hname
  have := List.inj_on_of_nodup_map (run_ok_nodup _ _ _ hrun) ha hin hname
  rw [this]

theorem C6_override_witness :
    ∃ vals, run ("prog" :: (["fix", "typo"] ++ [dashed "foo", Itoa (-42)])) schemaMixed
        = .ok vals ∧
      (⟨"foo", .str (Itoa (-42))⟩ : ArgumentValue) ∈ vals ∧
      ∀ a ∈ vals, a.Name = "foo" → a.Value = .str (Itoa (-42)) :=
  (C6_override schemaMixed ⟨"foo", "int", "a number", .int 5⟩ (-42) "prog" ["fix", "typo"]
    (by decide) (by decide) (by decide) (by decide) rfl (by decide) (by decide) (by decide)
    (by decide)).1

/-- C8 (counterexample). The schema has only supported-type definitions, unique names and
coercible defaults; the invocation `prog -dry false -foo 9` passes two distinct declared names,
each with a valid literal of its type. The boolean flag takes no value token: `dry` is set to
`true`, parsing stops at the token `false`, and `foo` keeps its default `5`. -/
theorem C8_flag_value_shape_counterexample :
    uniqueNames schemaDryFoo ∧ coercibleDefaults schemaDryFoo ∧
    (∀ d ∈ schemaDryFoo.Arguments, supported d = true) ∧
    literalText "bool" "false" = some "false" ∧ literalText "int" "9" = some "9" ∧
    run ("prog" :: flagValueTokens [("dry", "false"), ("foo", "9")]) schemaDryFoo
      = .ok [⟨"dry", .str "true"⟩, ⟨"foo", .str "5"⟩] := by
  decide

/-- C8 (amended). For every schema with unique names, coercible defaults and well-formed flag
names, and every invocation `prog -flag1 val1 -flag2 val2 ...` (the program name not beginning
with `-`) in which each flagK is a distinct declared name of a string or int definition and
each valK is a valid literal of that type, parsing succeeds, the collected value of every
passed flagK is the string form of valK, and every supported argument that is not passed keeps
the string form of its default. -/
theorem C8_flag_value_shape (argsConf : argumentsConf) (prog : String)
    (ps : List (String × String))
    (hu : uniqueNames argsConf) (hc : coercibleDefaults argsConf)
    (hw : wellFormedNames argsConf)
    (hprog : HasPrefix prog "-" = false)
    (hdist : (ps.map Prod.fst).Nodup)
    (hps : ∀ p ∈ ps, ∃ d ∈ argsConf.Arguments, d.Long = p.1 ∧
      (d.DataType = "string" ∨ d.DataType = "int") ∧
      ∃ txt, literalText d.DataType p.2 = some txt) :
    ∃ vals, run (prog :: flagValueTokens ps) argsConf = .ok vals ∧
      (∀ p ∈ ps, ∀ d ∈ argsConf.Arguments, d.Long = p.1 → ∀ txt,
        literalText d.DataType p.2 = some txt →
          (⟨p.1, .str txt⟩ : ArgumentValue) ∈ vals ∧
          ∀ a ∈ vals, a.Name = p.1 → a.Value = .str txt) ∧
      (∀ d ∈ argsConf.Arguments, supported d = true → d.Long ∉ ps.map Prod.fst →
        ∃ txt, defaultText d = some txt ∧ (⟨d.Long, .str txt⟩ : ArgumentValue) ∈ vals ∧
          ∀ a ∈ vals, a.Name = d.Long → a.Value = .str txt) := by
  obtain ⟨vals, hrun, hpass, hrest⟩ :=
    run_pairs_ok argsConf prog [] ps hu hc hw hprog (by simp) hdist hps
  have hrun1 : run (prog :: flagValueTokens ps) argsConf = .ok vals := by
    simpa using hrun
  have hnd := run_ok_nodup _ _ _ hrun1
  refine ⟨vals, hrun1, ?_, ?_⟩
  · intro p hp d hd hname txt htxt
    have hin := hpass p hp d hd hname txt htxt
    refine ⟨hin, fun a ha hn => ?_⟩
    rw [List.inj_on_of_nodup_map hnd ha hin hn]
  · intro d hd hs hnot
    obtain ⟨txt, h1, hin⟩ := hrest d hd hs hnot
    refine ⟨txt, h1, hin, fun a ha hn => ?_⟩
    rw [List.inj_on_of_nodup_map hnd ha hin hn]

theorem C8_flag_value_shape_witness :
    ∃ vals, run ("prog" :: flagValueTokens [("foo", "0x10"), ("msg", "-v")]) schemaMixed
        = .ok vals ∧
      (∀ p ∈ [("foo", "0x10"), ("msg", "-v")], ∀ d ∈ schemaMixed.Arguments, d.Long = p.1 →
        ∀ txt, literalText d.DataType p.2 = some txt →
          (⟨p.1, .str txt⟩ : ArgumentValue) ∈ vals ∧
          ∀ a ∈ vals, a.Name = p.1 → a.Value = .str txt) ∧
      (∀ d ∈ schemaMixed.Arguments, supported d = true →
        d.Long ∉ [("foo", "0x10"), ("msg", "-v")].map Prod.fst →
        ∃ txt, defaultText d = some txt ∧ (⟨d.Long, .str txt⟩ : ArgumentValue) ∈ vals ∧
          ∀ a ∈ vals, a.Name = d.Long → a.Value = .str txt) :=
  C8_flag_value_shape schemaMixed "prog" [("foo", "0x10"), ("msg", "-v")]
    (by decide) (by decide) (by decide) (by decide) (by decide)
    (by
      intro p hp
      simp only [List.mem_cons, List.mem_singleton, List.not_mem_nil, or_false] at hp
      rcases hp with rfl | rfl
      · exact ⟨⟨"foo", "int", "a number", .int 5⟩, by decide, rfl, Or.inr rfl, "16",
          by decide⟩
      · exact ⟨⟨"msg", "string", "a message", .str "none"⟩, by decide, rfl, Or.inl rfl, "-v",
          by decide⟩)

/-! ## Unknown flags -/

end GitopsArgparser
